import Mathlib

/-!
Verification of the musicky pending-edit reconciliation engine.

The development shallowly embeds the tag codec (phase extraction from
hashtag-augmented comment strings, phase toggling, comment rebuilding) and the
pending-edit engine (propose / apply / reject / undo over a persistent edit
table, a history log and a fallible tag I/O adapter) and proves the stated
properties about them.

Strings are modelled through their character lists (`String.data`); the JS
regex `/#\w+/g` is embedded as an executable maximal-munch scanner.
-/

/-- JS regex word-character class `\w` = `[A-Za-z0-9_]`. -/
def isWordChar (c : Char) : Bool := c.isAlpha || c.isDigit || c = '_'

/-- One segment of a comment string under the scan for `/#\w+/g`: either a
match (`tag r` stands for the characters `'#' :: r`, where `r` is the
nonempty maximal run of word characters following the `'#'`), or a single
character left unmatched. -/
inductive CSeg where
  | tag : List Char → CSeg
  | raw : Char → CSeg
  deriving Repr, DecidableEq

/-- Fuel-driven left-to-right maximal-munch scanner for `/#\w+/g`.
Structural recursion on the fuel keeps the definition kernel-reducible. -/
def lexGo : Nat → List Char → List CSeg
  | 0, _ => []
  | _ + 1, [] => []
  | fuel + 1, c :: rest =>
    if c = '#' then
      match rest.takeWhile isWordChar with
      | [] => .raw '#' :: lexGo fuel rest
      | r :: rs => .tag (r :: rs) :: lexGo fuel (rest.dropWhile isWordChar)
    else .raw c :: lexGo fuel rest

/-- Scan a character list for `/#\w+/g` matches, keeping unmatched characters. -/
def lexComment (l : List Char) : List CSeg := lexGo l.length l

/-- Characters a segment stands for in the original string. -/
def segChars : CSeg → List Char
  | .tag r => '#' :: r
  | .raw c => [c]

def segTag? : CSeg → Option (List Char)
  | .tag r => some r
  | .raw _ => none

def segRaw? : CSeg → Option Char
  | .tag _ => none
  | .raw c => some c

/-- The word-character runs of the `/#\w+/g` matches of `l`, in order. -/
def hashtagRuns (l : List Char) : List (List Char) := (lexComment l).filterMap segTag?

/-- The characters of `l` left after deleting every `/#\w+/g` match, i.e. the JS
`l.replace(/#\w+/g, '')`. -/
def rawChars (l : List Char) : List Char := (lexComment l).filterMap segRaw?

/-- The list `comment.match(/#\w+/g) || []` of hashtag tokens of a comment, each
kept with its leading `'#'`, in order of appearance. -/
def matchHashtags (comment : String) : List String :=
  (hashtagRuns comment.data).map (fun r => String.mk ('#' :: r))

/-- `extractPhases` of `src/unnamed/part_004` (lines 6-11): match `/#\w+/g`,
strip the leading `'#'` of each token (JS `tag.slice(1)`, embedded as dropping
the first character), keep the tokens that are members of `availablePhases`. -/
def extractPhases (comment : String) (availablePhases : List String) : List String :=
  let hashtags := matchHashtags comment
  (hashtags.map (fun tag => String.mk (tag.data.drop 1))).filter
    (fun tag => availablePhases.contains tag)

/-- Helper for the JS `[...new Set(l)]` idiom: deduplicate keeping the first
occurrence of each element, preserving insertion order; `seen` accumulates the
elements already emitted. -/
def dedupFirstGo : List String → List String → List String
  | _, [] => []
  | seen, x :: xs =>
    if seen.contains x then dedupFirstGo seen xs else x :: dedupFirstGo (x :: seen) xs

/-- JS `[...new Set(l)]`: dedup keeping first occurrences, in insertion order. -/
def dedupFirst (l : List String) : List String := dedupFirstGo [] l

/-- `togglePhase` of `src/unnamed/part_004` (lines 29-33): when `checked`,
`[...new Set([...currentPhases, phase])]`; otherwise filter out every
occurrence of `phase`. -/
def togglePhase (currentPhases : List String) (phase : String) (checked : Bool) : List String :=
  if checked then dedupFirst (currentPhases ++ [phase])
  else currentPhases.filter (fun p => p ≠ phase)

/-- JS `String.prototype.trim` on the character list: drop whitespace from both ends. -/
def trimChars (l : List Char) : List Char :=
  ((l.dropWhile Char.isWhitespace).reverse.dropWhile Char.isWhitespace).reverse

def trimString (s : String) : String := String.mk (trimChars s.data)

/-- JS `comment.replace(/#\w+/g, '')`: delete every hashtag match, keep the rest. -/
def removeHashtags (comment : String) : String := String.mk (rawChars comment.data)

/-- JS `Array.prototype.join(' ')` on the character lists of the parts. -/
def joinSp : List (List Char) → List Char
  | [] => []
  | [p] => p
  | p :: ps => p ++ ' ' :: joinSp ps

def joinSpace (parts : List String) : String := String.mk (joinSp (parts.map String.data))

/-- The `nonPhaseTags` computed by `onUpdateFilePhases` (`src/unnamed/part_012`,
line 152): hashtag tokens of the original comment whose stripped form is not an
available phase. -/
def nonPhaseTags (commentText : String) (availablePhases : List String) : List String :=
  (matchHashtags commentText).filter
    (fun tag => !availablePhases.contains (String.mk (tag.data.drop 1)))

/-- The `nonTagContent` computed by `onUpdateFilePhases` (`src/unnamed/part_012`,
line 153): the comment with every hashtag match removed, trimmed. -/
def nonTagContent (commentText : String) : String := trimString (removeHashtags commentText)

/-- Comment rebuilding of `onUpdateFilePhases` (`src/unnamed/part_012`, lines
148-169): free text first (when nonempty), then foreign tags, then the selected
phase tags, joined by single spaces and trimmed. -/
def rebuildComment (commentText : String) (availablePhases : List String)
    (phases : List String) : String :=
  let phaseTags := phases.map (fun phase => String.mk ('#' :: phase.data))
  let newCommentParts :=
    (if nonTagContent commentText ≠ "" then [nonTagContent commentText] else []) ++
      nonPhaseTags commentText availablePhases ++ phaseTags
  trimString (joinSpace newCommentParts)

/-- Status column of `mp3_pending_edits` (`CHECK (status IN ...)`). -/
inductive EditStatus where
  | pending
  | applied
  | failed
  deriving Repr, DecidableEq

/-- Row of `mp3_pending_edits` / the `PendingEdit` interface
(src/lib/mp3-metadata.ts, lines 50-57). Creation order is tracked by the list
position in `EngineState.edits` instead of a `created_at` column. -/
structure PendingEdit where
  id : Nat
  filePath : String
  originalComment : Option String
  newComment : String
  status : EditStatus
  deriving Repr, DecidableEq

/-- Row of `mp3_edit_history` (schema in src/unnamed/part_019, lines 74-83).
The `applied_at` ordering is tracked by list position in `EngineState.history`. -/
structure HistoryEntry where
  id : Nat
  filePath : String
  oldComment : Option String
  newComment : String
  reverted : Bool
  deriving Repr, DecidableEq

/-- State touched by the engine: the two tables, their autoincrement counters,
the on-disk comment per file (the surface the tag I/O adapter reads/writes),
and the module-global `lastApplyError` of src/unnamed/part_014. `edits` is
kept newest-first, matching `ORDER BY created_at DESC` of the queries;
`history` is kept in append (`applied_at`) order. -/
structure EngineState where
  edits : List PendingEdit
  nextEditId : Nat
  history : List HistoryEntry
  nextHistoryId : Nat
  disk : String → Option String
  lastApplyError : Option String

/-- `addPendingEdit` (src/database/sqlite/queries/mp3-edits, src/unnamed/part_019
lines 15-22): insert a new row with autoincrement id and status `pending`. -/
def addPendingEdit (filePath : String) (originalComment : Option String)
    (newComment : String) (s : EngineState) : EngineState :=
  { s with
    edits := { id := s.nextEditId, filePath := filePath, originalComment := originalComment,
               newComment := newComment, status := .pending } :: s.edits,
    nextEditId := s.nextEditId + 1 }

/-- `getAllPendingEdits` (src/unnamed/part_019 lines 24-36): every row of the
table, all statuses, newest first. -/
def getAllPendingEdits (s : EngineState) : List PendingEdit := s.edits

/-- `updatePendingEditStatus` (src/unnamed/part_019 lines 38-41):
`UPDATE mp3_pending_edits SET status = ? WHERE id = ?`. -/
def updatePendingEditStatus (id : Nat) (status : EditStatus) (s : EngineState) : EngineState :=
  { s with edits := s.edits.map (fun e => if e.id = id then { e with status := status } else e) }

/-- `removePendingEdit` (src/unnamed/part_019 lines 43-46):
`DELETE FROM mp3_pending_edits WHERE id = ?`. -/
def removePendingEdit (id : Nat) (s : EngineState) : EngineState :=
  { s with edits := s.edits.filter (fun e => e.id ≠ id) }

/-- `modifyPendingEdit` (src/unnamed/part_019 lines 48-51):
`UPDATE mp3_pending_edits SET new_comment = ? WHERE id = ?`. -/
def modifyPendingEdit (id : Nat) (newComment : String) (s : EngineState) : EngineState :=
  { s with
    edits := s.edits.map (fun e => if e.id = id then { e with newComment := newComment } else e) }

/-- `getPendingEditById` (src/unnamed/part_019 lines 53-65). -/
def getPendingEditById (id : Nat) (s : EngineState) : Option PendingEdit :=
  s.edits.find? (fun e => decide (e.id = id))

/-- Modelled from the spec: `getPendingEditByFilePath` is imported by
`onUpdateFilePhases` (src/unnamed/part_012, line 4) from the mp3-edits query
module, but its definition is not among the source files. Spec §4.2 describes
it as `findPendingByFilePath(filePath) → PendingEdit | null`, "the lookup used
to enforce invariant I1": the edit for this file path whose status is still
`pending`, if any. -/
def getPendingEditByFilePath (filePath : String) (s : EngineState) : Option PendingEdit :=
  s.edits.find? (fun e => decide (e.filePath = filePath ∧ e.status = .pending))

/-- `addHistory` (src/database/sqlite/queries/library-settings.ts lines 18-21):
append-only insert into `mp3_edit_history`, `reverted` defaulting to 0. -/
def addHistory (filePath : String) (oldComment : Option String) (newComment : String)
    (s : EngineState) : EngineState :=
  let entry : HistoryEntry :=
    { id := s.nextHistoryId, filePath := filePath, oldComment := oldComment,
      newComment := newComment, reverted := false }
  { s with history := s.history ++ [entry], nextHistoryId := s.nextHistoryId + 1 }

/-- `fetchHistory` (src/database/sqlite/queries/library-settings.ts lines 23-34):
`ORDER BY applied_at DESC`, i.e. newest first. -/
def fetchHistory (s : EngineState) : List HistoryEntry := s.history.reverse

/-- `markHistoryReverted` (src/database/sqlite/queries/library-settings.ts lines
36-39): `UPDATE mp3_edit_history SET reverted = 1 WHERE id = ?`. -/
def markHistoryReverted (id : Nat) (s : EngineState) : EngineState :=
  { s with
    history := s.history.map (fun h => if h.id = id then { h with reverted := true } else h) }

/-- The tag I/O adapter writing the comment field on success
(`mp3Manager.writeComment`). -/
def writeDisk (filePath comment : String) (s : EngineState) : EngineState :=
  { s with disk := fun p => if p = filePath then some comment else s.disk p }

/-- Node `path.extname` (POSIX): extension of the basename from its last dot;
empty when there is no dot or the only dot leads the basename. -/
def extnameChars (l : List Char) : List Char :=
  let base := (l.reverse.takeWhile (fun c => c ≠ '/')).reverse
  if base = ['.', '.'] then []
  else
    let afterDot := base.reverse.takeWhile (fun c => c ≠ '.')
    if afterDot.length + 1 < base.length then '.' :: afterDot.reverse else []

/-- `MP3MetadataManager.validateMP3File` (src/lib/mp3-metadata.ts lines 293-296):
the lowercased extension must equal `.mp3`. -/
def validateMP3File (filePath : String) : Bool :=
  decide ((extnameChars filePath.data).map Char.toLower = ".mp3".data)

/-- `onUpdateFilePhases` (src/unnamed/part_012, lines 139-187): merge the
selected phase set into the pending edit for the file, creating one when none
exists. The available phases (`readPhases()`) are passed as an argument; the
metadata read is modelled as a total lookup of the on-disk comment. -/
def onUpdateFilePhases (filePath : String) (phases : List String)
    (availablePhases : List String) (s : EngineState) : EngineState :=
  let existingPendingEdit := getPendingEditByFilePath filePath s
  let diskComment := s.disk filePath
  let originalComment :=
    match existingPendingEdit with
    | some e => e.originalComment
    | none => some (diskComment.getD "")
  let commentText := originalComment.getD ""
  let newComment := rebuildComment commentText availablePhases phases
  match existingPendingEdit with
  | some e => modifyPendingEdit e.id newComment s
  | none => addPendingEdit filePath originalComment newComment s

/-- Entry of the `failed` list returned by `onApplyPendingEdits`. -/
structure ApplyFailure where
  id : Nat
  error : String
  filePath : String
  deriving Repr, DecidableEq

/-- Return value of `onApplyPendingEdits`. -/
structure ApplyResult where
  success : Nat
  failed : List ApplyFailure
  deriving Repr, DecidableEq

/-- One iteration of the loop in `onApplyPendingEdits` (src/unnamed/part_014,
lines 89-139): validate the file, write the comment through the tag I/O
adapter `io`; on success append history and mark the edit `applied`, on a
thrown error mark it `failed`, remember the error in the module-global
`lastApplyError`, and report the message. -/
def applyAttempt (io : String → String → Except String Unit) (edit : PendingEdit) :
    Except String Unit :=
  if validateMP3File edit.filePath then io edit.filePath edit.newComment
  else Except.error ("Invalid MP3 file: " ++ edit.filePath)

def applyOne (io : String → String → Except String Unit) (edit : PendingEdit)
    (s : EngineState) : EngineState × Option String :=
  match applyAttempt io edit with
  | .ok _ =>
    let s₁ := writeDisk edit.filePath edit.newComment s
    let s₂ := addHistory edit.filePath edit.originalComment edit.newComment s₁
    (updatePendingEditStatus edit.id .applied s₂, none)
  | .error msg =>
    let s₁ := updatePendingEditStatus edit.id .failed s
    ({ s₁ with lastApplyError := some msg }, some msg)

/-- The `for` loop of `onApplyPendingEdits`: process each targeted edit
independently, counting successes and collecting failures in order. -/
def applyGo (io : String → String → Except String Unit) :
    List PendingEdit → EngineState → EngineState × ApplyResult
  | [], s => (s, { success := 0, failed := [] })
  | edit :: rest, s =>
    match applyOne io edit s with
    | (s₁, none) =>
      let step := applyGo io rest s₁
      (step.1, { step.2 with success := step.2.success + 1 })
    | (s₁, some msg) =>
      let step := applyGo io rest s₁
      (step.1,
        { step.2 with failed := { id := edit.id, error := msg, filePath := edit.filePath } :: step.2.failed })

/-- `onApplyPendingEdits` (src/unnamed/part_014, lines 71-148): resolve the
target list from `getAllPendingEdits()` (filtered by the given ids when
present), then apply each target in order. -/
def onApplyPendingEdits (io : String → String → Except String Unit)
    (editIds : Option (List Nat)) (s : EngineState) : EngineState × ApplyResult :=
  let pendingEdits := getAllPendingEdits s
  let editsToApply :=
    match editIds with
    | some ids => pendingEdits.filter (fun e => ids.contains e.id)
    | none => pendingEdits
  applyGo io editsToApply s

/-- `onRejectPendingEdit` (src/unnamed/part_012, lines 83-110): look the edit up
among all edits, refuse when missing or no longer pending, otherwise hard
delete the row. Returns the unchanged-or-updated state and the error, if any. -/
def onRejectPendingEdit (editId : Nat) (s : EngineState) : EngineState × Option String :=
  match (getAllPendingEdits s).find? (fun e => decide (e.id = editId)) with
  | none => (s, some "Edit not found")
  | some e =>
    if e.status ≠ EditStatus.pending then (s, some "Edit is not in pending status")
    else (removePendingEdit editId s, none)

/-- `onDeletePendingEdit` (src/unnamed/part_014, lines 153-155): unconditional
hard delete. -/
def onDeletePendingEdit (id : Nat) (s : EngineState) : EngineState :=
  removePendingEdit id s

/-- `onUndoAppliedEdit` (src/unnamed/part_014, lines 168-183): only valid on an
`applied` edit; write the original comment (empty string when null) back
through the tag I/O adapter, flag the most recent unreverted matching history
entry reverted when one exists, and reset the edit status to `pending`. -/
def onUndoAppliedEdit (io : String → String → Except String Unit) (id : Nat)
    (s : EngineState) : EngineState × Option String :=
  match getPendingEditById id s with
  | none => (s, some "Edit not found")
  | some edit =>
    if edit.status ≠ EditStatus.applied then (s, some "Edit is not applied")
    else
      match io edit.filePath (edit.originalComment.getD "") with
      | .error msg => (s, some msg)
      | .ok _ =>
        let s₁ := writeDisk edit.filePath (edit.originalComment.getD "") s
        let s₂ :=
          match (fetchHistory s₁).find? (fun h =>
              decide (h.filePath = edit.filePath ∧ h.newComment = edit.newComment ∧
                h.reverted = false)) with
          | some h => markHistoryReverted h.id s₁
          | none => s₁
        (updatePendingEditStatus id .pending s₂, none)

/-- Iterated `onUpdateFilePhases` calls against one file path, no other
operation interleaved; each call carries its `phases` argument and the
`availablePhases` configuration current at that call. -/
def runUpdates (filePath : String) (calls : List (List String × List String))
    (s : EngineState) : EngineState :=
  calls.foldl (fun st c => onUpdateFilePhases filePath c.1 c.2 st) s

/-- Number of rows that are `pending` for a given file path. -/
def pendingCountFor (filePath : String) (s : EngineState) : Nat :=
  (s.edits.filter (fun e => decide (e.filePath = filePath ∧ e.status = .pending))).length

/-- The `baseOriginalComment` a `proposePhaseToggle` call captures: the frozen
original of the existing pending edit, or else the live on-disk comment
(missing comment read as the empty string). -/
def capturedOriginal (filePath : String) (s : EngineState) : Option String :=
  match getPendingEditByFilePath filePath s with
  | some e => e.originalComment
  | none => some ((s.disk filePath).getD "")

/-- A character list in which no `'#'` is immediately followed by a word
character: scanning it yields no match. -/
def hashSafe (l : List Char) : Prop :=
  l.Chain' (fun a b => a = '#' → isWordChar b = false)

/-- The parts list `onUpdateFilePhases` joins: free text (when nonempty), then
foreign tags, then the selected phase tags. -/
def rebuildParts (commentText : String) (availablePhases : List String)
    (phases : List String) : List String :=
  (if nonTagContent commentText ≠ "" then [nonTagContent commentText] else []) ++
    nonPhaseTags commentText availablePhases ++
    phases.map (fun phase => String.mk ('#' :: phase.data))

/-- Whether the validate-and-write attempt for an edit succeeds. -/
def attemptOk (io : String → String → Except String Unit) (e : PendingEdit) : Bool :=
  match applyAttempt io e with
  | .ok _ => true
  | .error _ => false

/-- The thrown error message of a failing attempt (empty for a success). -/
def attemptErr (io : String → String → Except String Unit) (e : PendingEdit) : String :=
  match applyAttempt io e with
  | .ok _ => ""
  | .error msg => msg

/-- Whether the tag I/O write itself succeeds for an edit. -/
def writeOk (io : String → String → Except String Unit) (e : PendingEdit) : Bool :=
  match io e.filePath e.newComment with
  | .ok _ => true
  | .error _ => false

/-- The error message of a failing tag I/O write (empty for a success). -/
def writeErr (io : String → String → Except String Unit) (e : PendingEdit) : String :=
  match io e.filePath e.newComment with
  | .ok _ => ""
  | .error msg => msg

/-- The target list `onApplyPendingEdits` resolves: the explicitly requested
edits, or every edit of the store when the ids are omitted. -/
def resolveTargets (editIds : Option (List Nat)) (s : EngineState) : List PendingEdit :=
  match editIds with
  | some ids => (getAllPendingEdits s).filter (fun e => ids.contains e.id)
  | none => getAllPendingEdits s

/-- Status of the edit row with the given id, when present. -/
def editStatusOf (s : EngineState) (id : Nat) : Option EditStatus :=
  (getPendingEditById id s).map PendingEdit.status

/-- The rows of the edit table after a batch apply: each targeted row gets
status `applied` or `failed` according to its attempt, the rest are unchanged. -/
def editsAfterApply (io : String → String → Except String Unit)
    (targets : List PendingEdit) (edits : List PendingEdit) : List PendingEdit :=
  edits.map (fun row =>
    match targets.find? (fun t => decide (t.id = row.id)) with
    | some t => { row with status := if attemptOk io t then .applied else .failed }
    | none => row)

/-- The content rows of the history log (ids abstracted away). -/
def histData (s : EngineState) : List (String × Option String × String × Bool) :=
  s.history.map (fun h => (h.filePath, h.oldComment, h.newComment, h.reverted))

/-- The content fields of the edit rows (status excluded). -/
def editContent (s : EngineState) : List (Nat × String × Option String × String) :=
  s.edits.map (fun e => (e.id, e.filePath, e.originalComment, e.newComment))

/-- State after a successful single apply: disk written, history appended,
status set to `applied`. -/
def applyStateOk (t : PendingEdit) (s : EngineState) : EngineState :=
  updatePendingEditStatus t.id .applied
    (addHistory t.filePath t.originalComment t.newComment (writeDisk t.filePath t.newComment s))

/-- State after a failed single apply: status set to `failed`, error recorded. -/
def applyStateErr (io : String → String → Except String Unit) (t : PendingEdit)
    (s : EngineState) : EngineState :=
  { updatePendingEditStatus t.id .failed s with lastApplyError := some (attemptErr io t) }

def demoEditA : PendingEdit :=
  { id := 1, filePath := "a.mp3", originalComment := some "x",
    newComment := "a new", status := .pending }

def demoEditB : PendingEdit :=
  { id := 2, filePath := "b.mp3", originalComment := none,
    newComment := "b new", status := .pending }

def demoStatePending : EngineState :=
  { edits := [demoEditB, demoEditA], nextEditId := 3, history := [],
    nextHistoryId := 1, disk := fun _ => none, lastApplyError := none }

/-- Adapter that fails with "disk full" on `b.mp3` and succeeds elsewhere. -/
def ioFailB : String → String → Except String Unit :=
  fun p _ => if p = "b.mp3" then Except.error "disk full" else Except.ok ()

def demoAppliedEdit : PendingEdit :=
  { id := 1, filePath := "a.mp3", originalComment := some "x",
    newComment := "y", status := .applied }

def demoStateApplied : EngineState :=
  { edits := [demoAppliedEdit], nextEditId := 2, history := [],
    nextHistoryId := 1, disk := fun _ => some "y", lastApplyError := none }

/-- Adapter that always succeeds. -/
def ioAlwaysOk : String → String → Except String Unit := fun _ _ => Except.ok ()

def demoStateEmpty : EngineState :=
  { edits := [], nextEditId := 1, history := [],
    nextHistoryId := 1, disk := fun _ => some "great track", lastApplyError := none }

/-- The history entry `onUndoAppliedEdit` reverts: the first match in
`fetchHistory` order (`applied_at DESC`), i.e. the most recent unreverted entry
with this file path and new comment. -/
def mostRecentMatch (fp nc : String) (s : EngineState) : Option HistoryEntry :=
  (fetchHistory s).find? (fun h =>
    decide (h.filePath = fp ∧ h.newComment = nc ∧ h.reverted = false))

def demoHistEntry : HistoryEntry :=
  { id := 1, filePath := "a.mp3", oldComment := some "x", newComment := "y", reverted := false }

def demoStateUndo : EngineState :=
  { edits := [demoAppliedEdit], nextEditId := 2, history := [demoHistEntry],
    nextHistoryId := 2, disk := fun _ => some "y", lastApplyError := none }

theorem lexGo_stable : ∀ (f₁ f₂ : Nat) (l : List Char),
    l.length ≤ f₁ → l.length ≤ f₂ → lexGo f₁ l = lexGo f₂ l := by
  intro f₁
  induction f₁ with
  | zero =>
    intro f₂ l h₁ _
    have : l = [] := List.eq_nil_of_length_eq_zero (Nat.le_zero.mp h₁)
    subst this
    cases f₂ <;> rfl
  | succ n ih =>
    intro f₂ l h₁ h₂
    match l with
    | [] => cases f₂ <;> rfl
    | c :: rest =>
      match f₂ with
      | 0 => exact absurd h₂ (by simp)
      | m + 1 =>
        simp only [List.length_cons, Nat.add_le_add_iff_right] at h₁ h₂
        have hd : (rest.dropWhile isWordChar).length ≤ rest.length :=
          (List.dropWhile_suffix isWordChar).length_le
        simp only [lexGo]
        by_cases hc : c = '#'
        · subst hc
          rw [if_pos rfl, if_pos rfl]
          cases htw : rest.takeWhile isWordChar with
          | nil =>
            show CSeg.raw '#' :: lexGo n rest = CSeg.raw '#' :: lexGo m rest
            rw [ih m rest h₁ h₂]
          | cons r rs =>
            show CSeg.tag (r :: rs) :: lexGo n (rest.dropWhile isWordChar) =
              CSeg.tag (r :: rs) :: lexGo m (rest.dropWhile isWordChar)
            rw [ih m (rest.dropWhile isWordChar) (le_trans hd h₁) (le_trans hd h₂)]
        · rw [if_neg hc, if_neg hc, ih m rest h₁ h₂]

theorem lexComment_cons_ne {c : Char} (rest : List Char) (hc : c ≠ '#') :
    lexComment (c :: rest) = .raw c :: lexComment rest := by
  show lexGo (rest.length + 1) (c :: rest) = _
  simp only [lexGo, hc, if_false]
  rfl

theorem lexComment_hash_nil {rest : List Char} (h : rest.takeWhile isWordChar = []) :
    lexComment ('#' :: rest) = .raw '#' :: lexComment rest := by
  show lexGo (rest.length + 1) ('#' :: rest) = _
  simp only [lexGo, if_pos rfl, h]
  rfl

theorem lexComment_hash_tag {rest r : List Char} {r₀ : Char}
    (h : rest.takeWhile isWordChar = r₀ :: r) :
    lexComment ('#' :: rest) = .tag (r₀ :: r) :: lexComment (rest.dropWhile isWordChar) := by
  show lexGo (rest.length + 1) ('#' :: rest) = _
  simp only [lexGo]
  rw [if_pos trivial, h]
  show CSeg.tag (r₀ :: r) :: lexGo rest.length (rest.dropWhile isWordChar) = _
  rw [lexGo_stable rest.length (rest.dropWhile isWordChar).length (rest.dropWhile isWordChar)
    (List.dropWhile_suffix isWordChar).length_le le_rfl]
  rfl

/-- Custom induction principle following the recursion structure of the scanner. -/
theorem lexComment_induction (P : List Char → Prop)
    (hnil : P [])
    (hraw : ∀ c rest, c ≠ '#' → P rest → P (c :: rest))
    (hhash0 : ∀ rest, rest.takeWhile isWordChar = [] → P rest → P ('#' :: rest))
    (hhashT : ∀ rest r₀ r, rest.takeWhile isWordChar = r₀ :: r →
      P (rest.dropWhile isWordChar) → P ('#' :: rest)) :
    ∀ l, P l := by
  suffices h : ∀ f l, l.length ≤ f → P l from fun l => h l.length l le_rfl
  intro f
  induction f with
  | zero =>
    intro l hl
    have : l = [] := List.eq_nil_of_length_eq_zero (Nat.le_zero.mp hl)
    exact this ▸ hnil
  | succ n ih =>
    intro l hl
    match l with
    | [] => exact hnil
    | c :: rest =>
      simp only [List.length_cons, Nat.add_le_add_iff_right] at hl
      by_cases hc : c = '#'
      · subst hc
        cases htw : rest.takeWhile isWordChar with
        | nil => exact hhash0 rest htw (ih rest hl)
        | cons r₀ r =>
          exact hhashT rest r₀ r htw
            (ih _ (le_trans (List.dropWhile_suffix isWordChar).length_le hl))
      · exact hraw c rest hc (ih rest hl)

theorem head_dropWhile_not {α : Type} {p : α → Bool} {l : List α} {c : α}
    (h : (l.dropWhile p).head? = some c) : p c = false := by
  induction l with
  | nil => simp [List.dropWhile] at h
  | cons a as ih =>
    rw [List.dropWhile_cons] at h
    split at h
    · exact ih h
    · simp at h
      subst h
      simp_all

theorem takeWhile_eq_self_of_dropWhile_nil {α : Type} {p : α → Bool} {l : List α}
    (h : l.dropWhile p = []) : l.takeWhile p = l := by
  have := List.takeWhile_append_dropWhile (p := p) (l := l)
  rw [h] at this
  simpa using this

theorem takeWhile_nil_of_head {α : Type} {p : α → Bool} {l : List α}
    (h : ∀ c, l.head? = some c → p c = false) : l.takeWhile p = [] := by
  cases l with
  | nil => rfl
  | cons a as => simp [List.takeWhile_cons, h a rfl]

theorem head_of_takeWhile_nil {α : Type} {p : α → Bool} {l : List α}
    (h : l.takeWhile p = []) : ∀ c, l.head? = some c → p c = false := by
  intro c hc
  cases l with
  | nil => simp at hc
  | cons a as =>
    simp at hc
    subst hc
    rw [List.takeWhile_cons] at h
    by_contra hp
    simp [Bool.of_not_eq_false hp] at h

/-- Flattening the segments of the scan reconstructs the input. -/
theorem lexComment_flatten : ∀ l : List Char, ((lexComment l).map segChars).flatten = l := by
  refine lexComment_induction _ rfl ?_ ?_ ?_
  · intro c rest hc ih
    rw [lexComment_cons_ne rest hc]
    simpa [segChars] using ih
  · intro rest h ih
    rw [lexComment_hash_nil h]
    simpa [segChars] using ih
  · intro rest r₀ r htw ih
    rw [lexComment_hash_tag htw]
    simp only [List.map_cons, List.flatten_cons, segChars, ih]
    rw [List.cons_append, ← htw, List.takeWhile_append_dropWhile]

/-- Every run produced by the scanner is a nonempty string of word characters. -/
theorem hashtagRuns_shape :
    ∀ l : List Char, ∀ r ∈ hashtagRuns l, r ≠ [] ∧ ∀ c ∈ r, isWordChar c = true := by
  refine lexComment_induction _ (by simp [hashtagRuns, lexComment, lexGo]) ?_ ?_ ?_
  · intro c rest hc ih
    simpa [hashtagRuns, lexComment_cons_ne rest hc, segTag?] using ih
  · intro rest h ih
    simpa [hashtagRuns, lexComment_hash_nil h, segTag?] using ih
  · intro rest r₀ r htw ih
    intro x hx
    simp only [hashtagRuns, lexComment_hash_tag htw, List.filterMap_cons, segTag?] at hx
    rcases List.mem_cons.mp hx with hx | hx
    · subst hx
      refine ⟨by simp, fun c hc => ?_⟩
      exact List.mem_takeWhile_imp (htw ▸ hc)
    · exact ih x hx

/-- The scan distributes over an append whose right part does not begin with a
word character (so no match can straddle the boundary). -/
theorem lexComment_append (b : List Char)
    (hb : ∀ c, b.head? = some c → isWordChar c = false) :
    ∀ a : List Char, lexComment (a ++ b) = lexComment a ++ lexComment b := by
  refine lexComment_induction _ (by simp [lexComment, lexGo]) ?_ ?_ ?_
  · intro c rest hc ih
    rw [List.cons_append, lexComment_cons_ne _ hc, lexComment_cons_ne rest hc, ih,
      List.cons_append]
  · intro rest h ih
    have htw : (rest ++ b).takeWhile isWordChar = [] := by
      apply takeWhile_nil_of_head
      intro c hc
      cases rest with
      | nil => exact hb c (by simpa using hc)
      | cons a as =>
        simp at hc
        subst hc
        exact head_of_takeWhile_nil h a rfl
    rw [List.cons_append, lexComment_hash_nil htw, lexComment_hash_nil h, ih,
      List.cons_append]
  · intro rest r₀ r htw ih
    have htwb : b.takeWhile isWordChar = [] := takeWhile_nil_of_head hb
    have hdwb : b.dropWhile isWordChar = b := by
      cases b with
      | nil => rfl
      | cons c cs =>
        rw [List.dropWhile_cons, if_neg]
        simp [hb c rfl]
    by_cases hdw : rest.dropWhile isWordChar = []
    · have htself : rest.takeWhile isWordChar = rest := takeWhile_eq_self_of_dropWhile_nil hdw
      have hrest : rest = r₀ :: r := by rw [← htw, htself]
      have htw2 : (rest ++ b).takeWhile isWordChar = r₀ :: r := by
        rw [List.takeWhile_append, if_pos (by rw [htself]), htwb, List.append_nil, hrest]
      have hdw2 : (rest ++ b).dropWhile isWordChar = b := by
        rw [List.dropWhile_append, hdw]
        simp [hdwb]
      rw [List.cons_append, lexComment_hash_tag htw2, lexComment_hash_tag htw, hdw, hdw2]
      simp [lexComment, lexGo]
    · have hne : ¬ (rest.takeWhile isWordChar).length = rest.length := by
        intro hlen
        apply hdw
        apply List.eq_nil_of_length_eq_zero
        have hsum := congrArg List.length
          (List.takeWhile_append_dropWhile (p := isWordChar) (l := rest))
        rw [List.length_append] at hsum
        omega
      have htw2 : (rest ++ b).takeWhile isWordChar = r₀ :: r := by
        rw [List.takeWhile_append, if_neg hne, htw]
      have hdw2 : (rest ++ b).dropWhile isWordChar = rest.dropWhile isWordChar ++ b := by
        rw [List.dropWhile_append]
        simp [hdw]
      rw [List.cons_append, lexComment_hash_tag htw2, lexComment_hash_tag htw, hdw2, ih,
        List.cons_append]

theorem hashSafe_lexComment : ∀ l : List Char, hashSafe l → lexComment l = l.map CSeg.raw := by
  intro l
  induction l with
  | nil => intro _; rfl
  | cons c rest ih =>
    intro h
    have hrest : hashSafe rest := (List.chain'_cons'.mp h).2
    have hrel : ∀ b, rest.head? = some b → c = '#' → isWordChar b = false := by
      intro b hb hc
      exact (List.chain'_cons'.mp h).1 b hb hc
    by_cases hc : c = '#'
    · subst hc
      have htw : rest.takeWhile isWordChar = [] :=
        takeWhile_nil_of_head (fun b hb => hrel b hb rfl)
      rw [lexComment_hash_nil htw, ih hrest, List.map_cons]
    · rw [lexComment_cons_ne rest hc, ih hrest, List.map_cons]

theorem hashtagRuns_of_hashSafe {l : List Char} (h : hashSafe l) : hashtagRuns l = [] := by
  rw [hashtagRuns, hashSafe_lexComment l h]
  induction l with
  | nil => rfl
  | cons c rest ih => simp [segTag?, ih]

theorem rawChars_head :
    ∀ l : List Char, (∀ c, l.head? = some c → isWordChar c = false) →
      ∀ c, (rawChars l).head? = some c → isWordChar c = false := by
  refine lexComment_induction _ ?_ ?_ ?_ ?_
  · intro _ c hc
    simp [rawChars, lexComment, lexGo] at hc
  · intro c rest hc _ hhead d hd
    rw [rawChars, lexComment_cons_ne rest hc] at hd
    simp only [List.filterMap_cons, segRaw?] at hd
    simp at hd
    exact hd ▸ hhead c rfl
  · intro rest h _ _ d hd
    rw [rawChars, lexComment_hash_nil h] at hd
    simp only [List.filterMap_cons, segRaw?] at hd
    simp at hd
    subst hd
    decide
  · intro rest r₀ r htw ih _ d hd
    rw [rawChars, lexComment_hash_tag htw] at hd
    simp only [List.filterMap_cons, segRaw?] at hd
    exact ih (fun c hc => head_dropWhile_not hc) d hd

theorem hashSafe_rawChars : ∀ l : List Char, hashSafe (rawChars l) := by
  refine lexComment_induction _ ?_ ?_ ?_ ?_
  · simp [rawChars, lexComment, lexGo, hashSafe]
  · intro c rest hc ih
    rw [rawChars, lexComment_cons_ne rest hc]
    simp only [List.filterMap_cons, segRaw?]
    rw [hashSafe, List.chain'_cons']
    exact ⟨fun b _ hb => absurd hb hc, ih⟩
  · intro rest h ih
    rw [rawChars, lexComment_hash_nil h]
    simp only [List.filterMap_cons, segRaw?]
    rw [hashSafe, List.chain'_cons']
    refine ⟨fun b hb _ => ?_, ih⟩
    exact rawChars_head rest (head_of_takeWhile_nil h) b hb
  · intro rest r₀ r htw ih
    rw [rawChars, lexComment_hash_tag htw]
    simpa only [List.filterMap_cons, segRaw?] using ih

theorem isWordChar_of_ws {c : Char} (h : c.isWhitespace = true) : isWordChar c = false := by
  simp [Char.isWhitespace] at h
  rcases h with ((rfl | rfl) | rfl) | rfl <;> decide

theorem ne_hash_of_ws {c : Char} (h : c.isWhitespace = true) : c ≠ '#' := by
  intro hc
  subst hc
  simp [Char.isWhitespace] at h

theorem hashSafe_of_no_hash : ∀ l : List Char, (∀ c ∈ l, c ≠ '#') → hashSafe l := by
  intro l
  induction l with
  | nil => intro _; simp [hashSafe]
  | cons c rest ih =>
    intro h
    rw [hashSafe, List.chain'_cons']
    refine ⟨fun b _ hb => absurd hb (h c (List.mem_cons_self c rest)), ?_⟩
    exact ih fun d hd => h d (List.mem_cons_of_mem c hd)

theorem hashtagRuns_ws_append : ∀ a : List Char, (∀ c ∈ a, c.isWhitespace = true) →
    ∀ x : List Char, hashtagRuns (a ++ x) = hashtagRuns x := by
  intro a
  induction a with
  | nil => intro _ x; rfl
  | cons c rest ih =>
    intro h x
    have hc : c ≠ '#' := ne_hash_of_ws (h c (List.mem_cons_self c rest))
    rw [List.cons_append, hashtagRuns, lexComment_cons_ne _ hc]
    simp only [List.filterMap_cons, segTag?]
    exact ih (fun d hd => h d (List.mem_cons_of_mem c hd)) x

theorem hashtagRuns_append_ws (x b : List Char) (h : ∀ c ∈ b, c.isWhitespace = true) :
    hashtagRuns (x ++ b) = hashtagRuns x := by
  have hb : ∀ c, b.head? = some c → isWordChar c = false := by
    intro c hc
    exact isWordChar_of_ws (h c (List.mem_of_mem_head? hc))
  rw [hashtagRuns, lexComment_append b hb x, List.filterMap_append]
  have : hashtagRuns b = [] :=
    hashtagRuns_of_hashSafe (hashSafe_of_no_hash b (fun c hc => ne_hash_of_ws (h c hc)))
  rw [hashtagRuns] at this
  rw [this, List.append_nil, hashtagRuns]

theorem hashtagRuns_trimChars (l : List Char) : hashtagRuns (trimChars l) = hashtagRuns l := by
  have h1 : ∀ x : List Char,
      hashtagRuns ((x.reverse.dropWhile Char.isWhitespace).reverse) = hashtagRuns x := by
    intro x
    have hx : x = (x.reverse.dropWhile Char.isWhitespace).reverse ++
        (x.reverse.takeWhile Char.isWhitespace).reverse := by
      rw [← List.reverse_append, List.takeWhile_append_dropWhile, List.reverse_reverse]
    conv_rhs => rw [hx]
    rw [hashtagRuns_append_ws]
    intro c hc
    rw [List.mem_reverse] at hc
    exact List.mem_takeWhile_imp hc
  have h2 : hashtagRuns (l.dropWhile Char.isWhitespace) = hashtagRuns l := by
    conv_rhs => rw [← List.takeWhile_append_dropWhile (p := Char.isWhitespace) (l := l)]
    rw [hashtagRuns_ws_append]
    intro c hc
    exact List.mem_takeWhile_imp hc
  rw [trimChars, h1, h2]

theorem hashtagRuns_joinSp : ∀ parts : List (List Char),
    hashtagRuns (joinSp parts) = (parts.map hashtagRuns).flatten := by
  intro parts
  match parts with
  | [] => simp [joinSp, hashtagRuns, lexComment, lexGo]
  | [p] => simp [joinSp]
  | p :: q :: ps =>
    have hrec := hashtagRuns_joinSp (q :: ps)
    have hstep : joinSp (p :: q :: ps) = p ++ ' ' :: joinSp (q :: ps) := rfl
    rw [hstep, hashtagRuns, lexComment_append (' ' :: joinSp (q :: ps))
      (fun c hc => by simp at hc; subst hc; decide) p]
    rw [List.filterMap_append, lexComment_cons_ne _ (by decide)]
    simp only [List.filterMap_cons, segTag?]
    rw [← hashtagRuns, ← hashtagRuns, hrec]
    simp

theorem hashtagRuns_single_tag (r : List Char) (h0 : r ≠ [])
    (hw : ∀ c ∈ r, isWordChar c = true) : hashtagRuns ('#' :: r) = [r] := by
  have hdw : r.dropWhile isWordChar = [] := List.dropWhile_eq_nil_iff.mpr hw
  have htw : r.takeWhile isWordChar = r := takeWhile_eq_self_of_dropWhile_nil hdw
  match r, h0 with
  | r₀ :: rs, _ =>
    rw [hashtagRuns, lexComment_hash_tag (htw : (r₀ :: rs).takeWhile isWordChar = r₀ :: rs), hdw]
    simp [segTag?, lexComment, lexGo]

/-- `extractPhases` in terms of the scanner: make a string of each run and keep
those listed in `availablePhases`. -/
theorem extractPhases_eq (comment : String) (avail : List String) :
    extractPhases comment avail =
      ((hashtagRuns comment.data).map (fun r => String.mk r)).filter
        (fun t => avail.contains t) := by
  rw [extractPhases, matchHashtags, List.map_map]
  rfl

theorem mem_dedupFirstGo : ∀ (l seen : List String) (x : String),
    x ∈ dedupFirstGo seen l ↔ x ∈ l ∧ x ∉ seen := by
  intro l
  induction l with
  | nil => intro seen x; simp [dedupFirstGo]
  | cons a as ih =>
    intro seen x
    by_cases ha : a ∈ seen
    · rw [dedupFirstGo, if_pos (List.elem_iff.mpr ha), ih]
      constructor
      · rintro ⟨h1, h2⟩
        exact ⟨List.mem_cons_of_mem a h1, h2⟩
      · rintro ⟨h1, h2⟩
        rcases List.mem_cons.mp h1 with rfl | h1
        · exact absurd ha h2
        · exact ⟨h1, h2⟩
    · rw [dedupFirstGo, if_neg (fun hc => ha (List.elem_iff.mp hc)), List.mem_cons]
      constructor
      · rintro (rfl | hx)
        · exact ⟨List.mem_cons_self x as, ha⟩
        · rw [ih] at hx
          obtain ⟨h1, h2⟩ := hx
          refine ⟨List.mem_cons_of_mem a h1, fun hs => h2 (List.mem_cons_of_mem a hs)⟩
      · rintro ⟨h1, h2⟩
        by_cases hxa : x = a
        · exact Or.inl hxa
        · right
          rw [ih, List.mem_cons]
          rcases List.mem_cons.mp h1 with rfl | h1
          · exact absurd rfl hxa
          · exact ⟨h1, by simp [hxa, h2]⟩

theorem nodup_dedupFirstGo : ∀ (l seen : List String), (dedupFirstGo seen l).Nodup := by
  intro l
  induction l with
  | nil => intro seen; simp [dedupFirstGo]
  | cons a as ih =>
    intro seen
    rw [dedupFirstGo]
    by_cases ha : seen.contains a
    · rw [if_pos ha]
      exact ih seen
    · rw [if_neg ha, List.nodup_cons]
      refine ⟨fun hmem => ?_, ih (a :: seen)⟩
      exact ((mem_dedupFirstGo as (a :: seen) a).mp hmem).2 (List.mem_cons_self a seen)

theorem dedupFirstGo_append_mem : ∀ (l seen : List String) (p : String), l.Nodup →
    (∀ x ∈ l, x ∉ seen) → (p ∈ l ∨ p ∈ seen) → dedupFirstGo seen (l ++ [p]) = l := by
  intro l
  induction l with
  | nil =>
    intro seen p _ _ hp
    have hps : p ∈ seen := by
      rcases hp with hp | hp
      · exact absurd hp (List.not_mem_nil p)
      · exact hp
    simp only [List.nil_append, dedupFirstGo, if_pos (List.elem_iff.mpr hps)]
  | cons a as ih =>
    intro seen p hnd hseen hp
    have hanotin : a ∉ seen := hseen a (List.mem_cons_self a as)
    rw [List.cons_append, dedupFirstGo, if_neg (fun hc => hanotin (List.elem_iff.mp hc))]
    congr 1
    apply ih (a :: seen) p (List.Nodup.of_cons hnd)
    · intro x hx
      rw [List.mem_cons]
      rintro (rfl | hxs)
      · exact (List.nodup_cons.mp hnd).1 hx
      · exact hseen x (List.mem_cons_of_mem a hx) hxs
    · rcases hp with hp | hp
      · rcases List.mem_cons.mp hp with rfl | hp
        · exact Or.inr (List.mem_cons_self p seen)
        · exact Or.inl hp
      · exact Or.inr (List.mem_cons_of_mem a hp)

/-- C9: enabling the same phase twice yields the same phase list as once. -/
theorem togglePhase_enable_idempotent (ps : List String) (p : String) :
    togglePhase (togglePhase ps p true) p true = togglePhase ps p true := by
  rw [togglePhase, togglePhase, if_pos rfl, if_pos rfl, dedupFirst, dedupFirst]
  apply dedupFirstGo_append_mem
  · exact nodup_dedupFirstGo (ps ++ [p]) []
  · intro x _
    exact List.not_mem_nil x
  · left
    rw [mem_dedupFirstGo]
    exact ⟨List.mem_append_right ps (List.mem_cons_self p []), List.not_mem_nil p⟩

theorem head_append_of_head {α : Type} {l₁ : List α} (l₂ : List α) {a : α}
    (h : l₁.head? = some a) : (l₁ ++ l₂).head? = some a := by
  cases l₁ with
  | nil => simp at h
  | cons b bs => simpa using h

theorem dropWhile_eq_self_of_head {α : Type} {p : α → Bool} {l : List α}
    (h : ∀ c, l.head? = some c → p c = false) : l.dropWhile p = l := by
  cases l with
  | nil => rfl
  | cons a as =>
    rw [List.dropWhile_cons, if_neg]
    simp [h a rfl]

/-- Trimming is the identity on a string with non-whitespace ends. -/
theorem trimChars_eq_self {l : List Char}
    (hh : ∀ c, l.head? = some c → c.isWhitespace = false)
    (hl : ∀ c, l.getLast? = some c → c.isWhitespace = false) : trimChars l = l := by
  rw [trimChars, dropWhile_eq_self_of_head hh, dropWhile_eq_self_of_head, List.reverse_reverse]
  intro c hc
  rw [List.head?_reverse] at hc
  exact hl c hc

theorem joinSp_ne_nil : ∀ (p : List Char) (ps : List (List Char)), p ≠ [] →
    joinSp (p :: ps) ≠ [] := by
  intro p ps hp
  cases ps with
  | nil => exact hp
  | cons q qs =>
    show p ++ ' ' :: joinSp (q :: qs) ≠ []
    simp

theorem joinSp_head_mem : ∀ (parts : List (List Char)), (∀ x ∈ parts, x ≠ []) →
    ∀ c, (joinSp parts).head? = some c → ∃ x ∈ parts, x.head? = some c := by
  intro parts
  match parts with
  | [] => intro _ c hc; simp [joinSp] at hc
  | [p] => intro _ c hc; exact ⟨p, List.mem_cons_self p [], hc⟩
  | p :: q :: ps =>
    intro hne c hc
    have hp : p ≠ [] := hne p (List.mem_cons_self p (q :: ps))
    match p, hp with
    | a :: as, _ =>
      refine ⟨a :: as, List.mem_cons_self _ _, ?_⟩
      have : joinSp ((a :: as) :: q :: ps) = a :: (as ++ ' ' :: joinSp (q :: ps)) := rfl
      rw [this] at hc
      simpa using hc

theorem joinSp_getLast_mem : ∀ (parts : List (List Char)), (∀ x ∈ parts, x ≠ []) →
    ∀ c, (joinSp parts).getLast? = some c → ∃ x ∈ parts, x.getLast? = some c := by
  intro parts
  match parts with
  | [] => intro _ c hc; simp [joinSp] at hc
  | [p] => intro _ c hc; exact ⟨p, List.mem_cons_self p [], hc⟩
  | p :: q :: ps =>
    intro hne c hc
    have hq : q ≠ [] := hne q (List.mem_cons_of_mem p (List.mem_cons_self q ps))
    have hstep : joinSp (p :: q :: ps) = p ++ ' ' :: joinSp (q :: ps) := rfl
    rw [hstep, List.getLast?_append_of_ne_nil p (by simp)] at hc
    have hjoin_ne : joinSp (q :: ps) ≠ [] := joinSp_ne_nil q ps hq
    have hcons : (' ' :: joinSp (q :: ps)).getLast? = (joinSp (q :: ps)).getLast? := by
      have hsplit : ' ' :: joinSp (q :: ps) = [' '] ++ joinSp (q :: ps) := rfl
      rw [hsplit, List.getLast?_append_of_ne_nil _ hjoin_ne]
    rw [hcons] at hc
    obtain ⟨x, hx, hxl⟩ := joinSp_getLast_mem (q :: ps)
      (fun y hy => hne y (List.mem_cons_of_mem p hy)) c hc
    exact ⟨x, List.mem_cons_of_mem p hx, hxl⟩

theorem trimChars_getLast_not_ws (l : List Char) :
    ∀ c, (trimChars l).getLast? = some c → c.isWhitespace = false := by
  intro c hc
  rw [trimChars, List.getLast?_reverse] at hc
  exact head_dropWhile_not hc

theorem trimChars_head_not_ws (l : List Char) :
    ∀ c, (trimChars l).head? = some c → c.isWhitespace = false := by
  intro c hc
  rw [trimChars, List.head?_reverse] at hc
  have hz : (l.dropWhile Char.isWhitespace).reverse.dropWhile Char.isWhitespace ≠ [] := by
    intro hnil
    rw [hnil] at hc
    simp at hc
  obtain ⟨t, ht⟩ := List.dropWhile_suffix (l := (l.dropWhile Char.isWhitespace).reverse)
    Char.isWhitespace
  have happ := List.getLast?_append_of_ne_nil t hz
  rw [ht] at happ
  rw [← happ, List.getLast?_reverse] at hc
  exact head_dropWhile_not hc

theorem mem_nonPhaseTags {c : String} {avail : List String} {t : String}
    (h : t ∈ nonPhaseTags c avail) :
    ∃ r ∈ hashtagRuns c.data, t = String.mk ('#' :: r) ∧
      avail.contains (String.mk r) = false := by
  rw [nonPhaseTags, List.mem_filter] at h
  obtain ⟨hmem, hpred⟩ := h
  rw [matchHashtags, List.mem_map] at hmem
  obtain ⟨r, hr, rfl⟩ := hmem
  refine ⟨r, hr, rfl, ?_⟩
  simpa using hpred

theorem hashtagRuns_run {l r : List Char} (hr : r ∈ hashtagRuns l) :
    hashtagRuns ('#' :: r) = [r] := by
  obtain ⟨h0, hw⟩ := hashtagRuns_shape l r hr
  exact hashtagRuns_single_tag r h0 hw

theorem hashtagRuns_nonTagContent (c : String) : hashtagRuns (nonTagContent c).data = [] := by
  show hashtagRuns (trimChars (rawChars c.data)) = []
  rw [hashtagRuns_trimChars]
  exact hashtagRuns_of_hashSafe (hashSafe_rawChars c.data)

theorem flatten_map_eq_map {α β : Type} {F : α → List β} {g : α → β} :
    ∀ l : List α, (∀ x ∈ l, F x = [g x]) → (l.map F).flatten = l.map g := by
  intro l
  induction l with
  | nil => intro _; rfl
  | cons a as ih =>
    intro h
    rw [List.map_cons, List.flatten_cons, h a (List.mem_cons_self a as), List.map_cons,
      ih (fun x hx => h x (List.mem_cons_of_mem a hx))]
    rfl

theorem rebuildComment_eq_parts (c : String) (avail phases : List String) :
    rebuildComment c avail phases = trimString (joinSpace (rebuildParts c avail phases)) := rfl

theorem hashtagRuns_rebuildComment (c : String) (avail phases : List String)
    (hph : ∀ p ∈ phases, p.data ≠ [] ∧ ∀ ch ∈ p.data, isWordChar ch = true) :
    hashtagRuns (rebuildComment c avail phases).data =
      (nonPhaseTags c avail).map (fun t => t.data.drop 1) ++ phases.map String.data := by
  rw [rebuildComment_eq_parts]
  show hashtagRuns (trimChars (joinSp ((rebuildParts c avail phases).map String.data))) = _
  rw [hashtagRuns_trimChars, hashtagRuns_joinSp, List.map_map]
  rw [rebuildParts]
  rw [List.map_append, List.map_append, List.flatten_append, List.flatten_append]
  have hft : (((if nonTagContent c ≠ "" then [nonTagContent c] else []).map
      (hashtagRuns ∘ String.data)).flatten : List (List Char)) = [] := by
    by_cases hne : nonTagContent c ≠ "" <;>
      simp [hne, Function.comp, hashtagRuns_nonTagContent]
  have hforeign : ((nonPhaseTags c avail).map (hashtagRuns ∘ String.data)).flatten =
      (nonPhaseTags c avail).map (fun t => t.data.drop 1) := by
    apply flatten_map_eq_map
    intro t ht
    obtain ⟨r, hr, rfl, _⟩ := mem_nonPhaseTags ht
    show hashtagRuns ('#' :: r) = [('#' :: r).drop 1]
    rw [hashtagRuns_run hr]
    rfl
  have hphase : ((phases.map (fun phase => String.mk ('#' :: phase.data))).map
      (hashtagRuns ∘ String.data)).flatten = phases.map String.data := by
    rw [List.map_map]
    apply flatten_map_eq_map
    intro p hp
    show hashtagRuns ('#' :: p.data) = [p.data]
    exact hashtagRuns_single_tag p.data (hph p hp).1 (hph p hp).2
  rw [hft, hforeign, hphase, List.nil_append]

theorem not_ws_of_wordChar {c : Char} (h : isWordChar c = true) : c.isWhitespace = false := by
  cases hws : c.isWhitespace
  · rfl
  · rw [isWordChar_of_ws hws] at h
    exact absurd h (by simp)

theorem data_ne_nil_of_ne_empty {s : String} (h : s ≠ "") : s.data ≠ [] := by
  intro hd
  apply h
  have hs : s = String.mk s.data := rfl
  rw [hs, hd]

theorem mem_rebuildParts_data_ne_nil {c : String} {avail phases : List String} {t : String}
    (ht : t ∈ rebuildParts c avail phases) : t.data ≠ [] := by
  rw [rebuildParts, List.append_assoc, List.mem_append] at ht
  rcases ht with ht | ht
  · by_cases hne : nonTagContent c ≠ ""
    · rw [if_pos hne, List.mem_singleton] at ht
      subst ht
      exact data_ne_nil_of_ne_empty hne
    · rw [if_neg hne] at ht
      exact absurd ht (List.not_mem_nil t)
  · rw [List.mem_append] at ht
    rcases ht with ht | ht
    · obtain ⟨r, _, rfl, _⟩ := mem_nonPhaseTags ht
      simp
    · rw [List.mem_map] at ht
      obtain ⟨p, _, rfl⟩ := ht
      simp

theorem mem_rebuildParts_head_not_ws {c : String} {avail phases : List String} {t : String}
    (ht : t ∈ rebuildParts c avail phases) :
    ∀ ch, t.data.head? = some ch → ch.isWhitespace = false := by
  rw [rebuildParts, List.append_assoc, List.mem_append] at ht
  intro ch hch
  rcases ht with ht | ht
  · by_cases hne : nonTagContent c ≠ ""
    · rw [if_pos hne, List.mem_singleton] at ht
      subst ht
      exact trimChars_head_not_ws _ ch hch
    · rw [if_neg hne] at ht
      exact absurd ht (List.not_mem_nil t)
  · rw [List.mem_append] at ht
    have hhash : t.data.head? = some '#' → ch = '#' → ch.isWhitespace = false := by
      intro _ hc
      subst hc
      decide
    rcases ht with ht | ht
    · obtain ⟨r, _, rfl, _⟩ := mem_nonPhaseTags ht
      simp at hch
      exact hhash rfl hch.symm
    · rw [List.mem_map] at ht
      obtain ⟨p, _, rfl⟩ := ht
      simp at hch
      exact hhash rfl hch.symm

theorem mem_rebuildParts_getLast_not_ws {c : String} {avail phases : List String}
    (hph : ∀ p ∈ phases, p.data ≠ [] ∧ ∀ ch ∈ p.data, isWordChar ch = true) {t : String}
    (ht : t ∈ rebuildParts c avail phases) :
    ∀ ch, t.data.getLast? = some ch → ch.isWhitespace = false := by
  rw [rebuildParts, List.append_assoc, List.mem_append] at ht
  intro ch hch
  have hrun : ∀ r : List Char, r ≠ [] → (∀ d ∈ r, isWordChar d = true) →
      ('#' :: r).getLast? = some ch → ch.isWhitespace = false := by
    intro r hr hw hlast
    rw [show ('#' :: r) = ['#'] ++ r from rfl, List.getLast?_append_of_ne_nil _ hr] at hlast
    have hmem : ch ∈ r := by
      have := List.getLast?_eq_getLast r hr
      rw [this] at hlast
      simp at hlast
      subst hlast
      exact List.getLast_mem hr
    exact not_ws_of_wordChar (hw ch hmem)
  rcases ht with ht | ht
  · by_cases hne : nonTagContent c ≠ ""
    · rw [if_pos hne, List.mem_singleton] at ht
      subst ht
      exact trimChars_getLast_not_ws _ ch hch
    · rw [if_neg hne] at ht
      exact absurd ht (List.not_mem_nil t)
  · rw [List.mem_append] at ht
    rcases ht with ht | ht
    · obtain ⟨r, hr, rfl, _⟩ := mem_nonPhaseTags ht
      obtain ⟨h0, hw⟩ := hashtagRuns_shape c.data r hr
      exact hrun r h0 hw hch
    · rw [List.mem_map] at ht
      obtain ⟨p, hp, rfl⟩ := ht
      exact hrun p.data (hph p hp).1 (hph p hp).2 hch

/-- With phase names that are nonempty word-character runs, the final trim of
the rebuild is a no-op: the joined string already has non-whitespace ends. -/
theorem rebuildComment_eq_join (c : String) (avail phases : List String)
    (hph : ∀ p ∈ phases, p.data ≠ [] ∧ ∀ ch ∈ p.data, isWordChar ch = true) :
    rebuildComment c avail phases = joinSpace (rebuildParts c avail phases) := by
  rw [rebuildComment_eq_parts]
  show String.mk (trimChars (joinSp ((rebuildParts c avail phases).map String.data))) = _
  have hne : ∀ x ∈ (rebuildParts c avail phases).map String.data, x ≠ [] := by
    intro x hx
    rw [List.mem_map] at hx
    obtain ⟨t, ht, rfl⟩ := hx
    exact mem_rebuildParts_data_ne_nil ht
  have htrim : trimChars (joinSp ((rebuildParts c avail phases).map String.data)) =
      joinSp ((rebuildParts c avail phases).map String.data) := by
    apply trimChars_eq_self
    · intro ch hch
      obtain ⟨x, hx, hxh⟩ := joinSp_head_mem _ hne ch hch
      rw [List.mem_map] at hx
      obtain ⟨t, ht, rfl⟩ := hx
      exact mem_rebuildParts_head_not_ws ht ch hxh
    · intro ch hch
      obtain ⟨x, hx, hxh⟩ := joinSp_getLast_mem _ hne ch hch
      rw [List.mem_map] at hx
      obtain ⟨t, ht, rfl⟩ := hx
      exact mem_rebuildParts_getLast_not_ws hph ht ch hxh
  rw [htrim]
  rfl

theorem mem_infix_joinSp : ∀ (parts : List (List Char)) (x : List Char), x ∈ parts →
    x <:+: joinSp parts := by
  intro parts
  match parts with
  | [] => intro x hx; exact absurd hx (List.not_mem_nil x)
  | [p] =>
    intro x hx
    rw [List.mem_singleton] at hx
    subst hx
    exact List.infix_refl x
  | p :: q :: ps =>
    intro x hx
    rcases List.mem_cons.mp hx with rfl | hx
    · exact ⟨[], ' ' :: joinSp (q :: ps), rfl⟩
    · obtain ⟨s, t, hst⟩ := mem_infix_joinSp (q :: ps) x hx
      refine ⟨p ++ ' ' :: s, t, ?_⟩
      show (p ++ ' ' :: s) ++ x ++ t = joinSp (p :: q :: ps)
      have hstep : joinSp (p :: q :: ps) = p ++ ' ' :: joinSp (q :: ps) := rfl
      rw [hstep, ← hst]
      simp

/-- C7: rebuilding a comment with a phase list drawn from `availablePhases`
(each phase a nonempty word-character name) and then extracting phases from the
result recovers exactly the phase list passed in; the free text and every
foreign tag of the original comment remain verbatim (as contiguous substrings)
in the rebuilt comment, which consists of the free text first, then the foreign
tags, then the phase tags, space-joined and trimmed — the trailing trim being a
no-op on this shape. -/
theorem rebuild_extract_roundtrip (c : String) (avail phases : List String)
    (hph : ∀ p ∈ phases, p.data ≠ [] ∧ (∀ ch ∈ p.data, isWordChar ch = true) ∧ p ∈ avail) :
    extractPhases (rebuildComment c avail phases) avail = phases ∧
    (nonTagContent c ≠ "" →
      (nonTagContent c).data <:+: (rebuildComment c avail phases).data) ∧
    (∀ t ∈ nonPhaseTags c avail, t.data <:+: (rebuildComment c avail phases).data) ∧
    rebuildComment c avail phases = joinSpace (rebuildParts c avail phases) := by
  have hph2 : ∀ p ∈ phases, p.data ≠ [] ∧ ∀ ch ∈ p.data, isWordChar ch = true :=
    fun p hp => ⟨(hph p hp).1, (hph p hp).2.1⟩
  have hjoin := rebuildComment_eq_join c avail phases hph2
  have hinfix : ∀ t : String, t ∈ rebuildParts c avail phases →
      t.data <:+: (rebuildComment c avail phases).data := by
    intro t ht
    rw [hjoin]
    show t.data <:+: joinSp ((rebuildParts c avail phases).map String.data)
    exact mem_infix_joinSp _ t.data (List.mem_map_of_mem String.data ht)
  refine ⟨?_, ?_, ?_, hjoin⟩
  · rw [extractPhases_eq, hashtagRuns_rebuildComment c avail phases hph2, List.map_append,
      List.filter_append, List.map_map, List.map_map]
    have hA : (((nonPhaseTags c avail).map
        ((fun r => String.mk r) ∘ fun t => t.data.drop 1)).filter
        (fun t => avail.contains t)) = [] := by
      rw [List.filter_eq_nil_iff]
      intro a ha
      rw [List.mem_map] at ha
      obtain ⟨t, ht, rfl⟩ := ha
      obtain ⟨r, hr, rfl, hcon⟩ := mem_nonPhaseTags ht
      show ¬(avail.contains (String.mk ((String.mk ('#' :: r)).data.drop 1)) = true)
      have hdata : (String.mk ((String.mk ('#' :: r)).data.drop 1)) = String.mk r := rfl
      rw [hdata, hcon]
      simp
    have hB : (phases.map ((fun r => String.mk r) ∘ String.data)) = phases := by
      apply List.map_id''
      intro p
      rfl
    rw [hA, hB, List.nil_append, List.filter_eq_self]
    intro p hp
    exact List.elem_iff.mpr (hph p hp).2.2
  · intro hne
    apply hinfix
    rw [rebuildParts, if_pos hne]
    exact List.mem_append_left _ (List.mem_append_left _ (List.mem_singleton.mpr rfl))
  · intro t ht
    apply hinfix
    rw [rebuildParts]
    exact List.mem_append_left _ (List.mem_append_right _ ht)

theorem rebuild_extract_roundtrip_witness :
    extractPhases (rebuildComment "great notes #custom" ["peak", "buildup"] ["peak", "buildup"])
      ["peak", "buildup"] = ["peak", "buildup"] :=
  (rebuild_extract_roundtrip "great notes #custom" ["peak", "buildup"] ["peak", "buildup"]
    (by decide)).1

theorem hashtag_infix_of_mem_runs {l r : List Char} (hr : r ∈ hashtagRuns l) :
    ('#' :: r) <:+: l := by
  rw [hashtagRuns, List.mem_filterMap] at hr
  obtain ⟨s, hs, hst⟩ := hr
  have hseg : segChars s = '#' :: r := by
    cases s with
    | tag x =>
      simp [segTag?] at hst
      subst hst
      rfl
    | raw c => simp [segTag?] at hst
  have hmem : ('#' :: r) ∈ (lexComment l).map segChars := by
    rw [← hseg]
    exact List.mem_map_of_mem segChars hs
  have hinf := List.infix_of_mem_flatten hmem
  rwa [lexComment_flatten] at hinf

/-- C6 (amended): `extractPhases(comment, availablePhases)` returns exactly the
tokens of `comment` matching `#\w+` with the leading `'#'` stripped, filtered
to members of `availablePhases`, in order of appearance — duplicates are
retained, not collapsed. Every returned token is a nonempty word-character run
whose `'#'`-prefixed form occurs verbatim in the comment. -/
theorem extractPhases_characterization (comment : String) (avail : List String) :
    extractPhases comment avail =
      ((hashtagRuns comment.data).map (fun r => String.mk r)).filter
        (fun t => avail.contains t) ∧
    List.Sublist (extractPhases comment avail)
      ((hashtagRuns comment.data).map (fun r => String.mk r)) ∧
    ∀ t ∈ extractPhases comment avail, t ∈ avail ∧ t.data ≠ [] ∧
      (∀ ch ∈ t.data, isWordChar ch = true) ∧ ('#' :: t.data) <:+: comment.data := by
  refine ⟨extractPhases_eq comment avail, ?_, ?_⟩
  · rw [extractPhases_eq]
    exact List.filter_sublist _
  · intro t ht
    rw [extractPhases_eq, List.mem_filter] at ht
    obtain ⟨hmem, hcon⟩ := ht
    rw [List.mem_map] at hmem
    obtain ⟨r, hr, rfl⟩ := hmem
    obtain ⟨h0, hw⟩ := hashtagRuns_shape comment.data r hr
    exact ⟨List.elem_iff.mp hcon, h0, hw, hashtag_infix_of_mem_runs hr⟩

/-- C6 counterexample: on the comment `"#peak #peak"` with available phases
`["peak"]`, `extractPhases` returns the token twice — duplicates are not
collapsed to a single occurrence as the claim states. -/
theorem extractPhases_counterexample :
    extractPhases "#peak #peak" ["peak"] = ["peak", "peak"] ∧
    ¬ (extractPhases "#peak #peak" ["peak"]).Nodup := by
  constructor
  · decide
  · decide

theorem onApplyPendingEdits_eq (io : String → String → Except String Unit)
    (editIds : Option (List Nat)) (s : EngineState) :
    onApplyPendingEdits io editIds s = applyGo io (resolveTargets editIds s) s := by
  cases editIds <;> rfl

theorem applyOne_of_ok {io : String → String → Except String Unit} {e : PendingEdit}
    (s : EngineState) (h : attemptOk io e = true) :
    applyOne io e s = (updatePendingEditStatus e.id .applied
      (addHistory e.filePath e.originalComment e.newComment
        (writeDisk e.filePath e.newComment s)), none) := by
  rw [applyOne]
  rw [attemptOk] at h
  cases hA : applyAttempt io e with
  | ok u => rfl
  | error msg => rw [hA] at h; simp at h

theorem applyOne_of_err {io : String → String → Except String Unit} {e : PendingEdit}
    (s : EngineState) (h : attemptOk io e = false) :
    applyOne io e s =
      ({ updatePendingEditStatus e.id .failed s with lastApplyError := some (attemptErr io e) },
        some (attemptErr io e)) := by
  rw [applyOne]
  rw [attemptOk] at h
  cases hA : applyAttempt io e with
  | ok u => rw [hA] at h; simp at h
  | error msg => rw [attemptErr, hA]

theorem applyGo_cons_of_ok {io : String → String → Except String Unit} {t : PendingEdit}
    (rest : List PendingEdit) (s : EngineState) (h : attemptOk io t = true) :
    applyGo io (t :: rest) s =
      ((applyGo io rest (applyStateOk t s)).1,
        { success := (applyGo io rest (applyStateOk t s)).2.success + 1,
          failed := (applyGo io rest (applyStateOk t s)).2.failed }) := by
  simp only [applyGo, applyOne_of_ok s h, applyStateOk]

theorem applyGo_cons_of_err {io : String → String → Except String Unit} {t : PendingEdit}
    (rest : List PendingEdit) (s : EngineState) (h : attemptOk io t = false) :
    applyGo io (t :: rest) s =
      ((applyGo io rest (applyStateErr io t s)).1,
        { success := (applyGo io rest (applyStateErr io t s)).2.success,
          failed := { id := t.id, error := attemptErr io t, filePath := t.filePath } ::
            (applyGo io rest (applyStateErr io t s)).2.failed }) := by
  simp only [applyGo, applyOne_of_err s h, applyStateErr]

theorem editsAfterApply_nil (io : String → String → Except String Unit)
    (E : List PendingEdit) : editsAfterApply io [] E = E := by
  rw [editsAfterApply]
  apply List.map_id''
  intro row
  rfl

theorem editsAfterApply_cons_comm (io : String → String → Except String Unit)
    (t : PendingEdit) (rest : List PendingEdit) (E : List PendingEdit)
    (hid : ∀ t2 ∈ rest, t2.id ≠ t.id) :
    editsAfterApply io rest
      (E.map (fun e => if e.id = t.id
        then { e with status := if attemptOk io t then EditStatus.applied else .failed }
        else e)) =
    editsAfterApply io (t :: rest) E := by
  rw [editsAfterApply, editsAfterApply, List.map_map]
  apply List.map_congr_left
  intro row _
  by_cases hr : row.id = t.id
  · have hfind : rest.find? (fun t2 => decide (t2.id = row.id)) = none := by
      rw [List.find?_eq_none]
      intro t2 ht2
      simp [hid t2 ht2, hr]
    have hfind2 : (t :: rest).find? (fun t2 => decide (t2.id = row.id)) = some t :=
      List.find?_cons_of_pos rest (by simp [hr])
    simp only [Function.comp_apply, if_pos hr, hfind, hfind2]
  · have hfind2 : (t :: rest).find? (fun t2 => decide (t2.id = row.id)) =
        rest.find? (fun t2 => decide (t2.id = row.id)) :=
      List.find?_cons_of_neg rest (by simp only [decide_eq_true_eq]; exact fun h => hr h.symm)
    simp only [Function.comp_apply, if_neg hr, hfind2]

theorem histData_applyStateOk (t : PendingEdit) (s : EngineState) :
    histData (applyStateOk t s) =
      histData s ++ [(t.filePath, t.originalComment, t.newComment, false)] := by
  simp [applyStateOk, histData, updatePendingEditStatus, addHistory, writeDisk]

theorem histData_applyStateErr (io : String → String → Except String Unit)
    (t : PendingEdit) (s : EngineState) : histData (applyStateErr io t s) = histData s := rfl

/-- Full characterisation of the apply loop: counts, failure list, history
growth and row statuses. -/
theorem applyGo_spec (io : String → String → Except String Unit) :
    ∀ (targets : List PendingEdit) (s : EngineState),
    (targets.map PendingEdit.id).Nodup →
    ((applyGo io targets s).2.success = (targets.filter (attemptOk io)).length ∧
      (applyGo io targets s).2.failed =
        (targets.filter (fun e => !attemptOk io e)).map
          (fun e => { id := e.id, error := attemptErr io e, filePath := e.filePath })) ∧
    histData (applyGo io targets s).1 =
      histData s ++ (targets.filter (attemptOk io)).map
        (fun e => (e.filePath, e.originalComment, e.newComment, false)) ∧
    (applyGo io targets s).1.edits = editsAfterApply io targets s.edits := by
  intro targets
  induction targets with
  | nil =>
    intro s _
    exact ⟨⟨rfl, rfl⟩, by simp [applyGo], (editsAfterApply_nil io s.edits).symm⟩
  | cons t rest ih =>
    intro s hnd
    rw [List.map_cons, List.nodup_cons] at hnd
    obtain ⟨hid, hndrest⟩ := hnd
    have hid2 : ∀ t2 ∈ rest, t2.id ≠ t.id := by
      intro t2 ht2 h
      exact hid (h ▸ List.mem_map_of_mem PendingEdit.id ht2)
    cases hok : attemptOk io t with
    | true =>
      rw [applyGo_cons_of_ok rest s hok]
      obtain ⟨⟨ihs, ihf⟩, ihh, ihe⟩ := ih (applyStateOk t s) hndrest
      refine ⟨⟨?_, ?_⟩, ?_, ?_⟩
      · rw [ihs]
        simp [List.filter_cons, hok]
      · rw [ihf]
        simp [List.filter_cons, hok]
      · rw [ihh, histData_applyStateOk]
        simp [List.filter_cons, hok, List.append_assoc]
      · show (applyGo io rest (applyStateOk t s)).1.edits = _
        rw [ihe]
        have hse : (applyStateOk t s).edits = s.edits.map (fun e => if e.id = t.id
            then { e with status := if attemptOk io t then EditStatus.applied else .failed }
            else e) := by
          simp [applyStateOk, updatePendingEditStatus, addHistory, writeDisk, hok]
        rw [hse, editsAfterApply_cons_comm io t rest s.edits hid2]
    | false =>
      rw [applyGo_cons_of_err rest s hok]
      obtain ⟨⟨ihs, ihf⟩, ihh, ihe⟩ := ih (applyStateErr io t s) hndrest
      refine ⟨⟨?_, ?_⟩, ?_, ?_⟩
      · rw [ihs]
        simp [List.filter_cons, hok]
      · rw [ihf]
        simp [List.filter_cons, hok]
      · rw [ihh, histData_applyStateErr]
        simp [List.filter_cons, hok]
      · show (applyGo io rest (applyStateErr io t s)).1.edits = _
        rw [ihe]
        have hse : (applyStateErr io t s).edits = s.edits.map (fun e => if e.id = t.id
            then { e with status := if attemptOk io t then EditStatus.applied else .failed }
            else e) := by
          simp [applyStateErr, updatePendingEditStatus, hok]
        rw [hse, editsAfterApply_cons_comm io t rest s.edits hid2]

theorem filter_length_partition {α : Type} (p : α → Bool) (l : List α) :
    (l.filter p).length + (l.filter (fun a => !p a)).length = l.length := by
  induction l with
  | nil => rfl
  | cons a as ih =>
    cases ha : p a <;> simp [List.filter_cons, ha] <;> omega

theorem find?_eq_self_of_nodup {l : List PendingEdit}
    (hnd : (l.map PendingEdit.id).Nodup) {e : PendingEdit} (he : e ∈ l) :
    l.find? (fun t => decide (t.id = e.id)) = some e := by
  induction l with
  | nil => exact absurd he (List.not_mem_nil e)
  | cons a as ih =>
    rw [List.map_cons, List.nodup_cons] at hnd
    rcases List.mem_cons.mp he with rfl | he2
    · exact List.find?_cons_of_pos as (by simp)
    · have hne : ¬(a.id = e.id) := fun h =>
        hnd.1 (h ▸ List.mem_map_of_mem PendingEdit.id he2)
      exact (List.find?_cons_of_neg as (by simpa using hne)).trans (ih hnd.2 he2)

theorem attemptOk_eq_writeOk {io : String → String → Except String Unit} {e : PendingEdit}
    (h : validateMP3File e.filePath = true) : attemptOk io e = writeOk io e := by
  rw [attemptOk, writeOk, applyAttempt, if_pos h]

theorem attemptErr_eq_writeErr {io : String → String → Except String Unit} {e : PendingEdit}
    (h : validateMP3File e.filePath = true) : attemptErr io e = writeErr io e := by
  rw [attemptErr, writeErr, applyAttempt, if_pos h]

theorem resolveTargets_sublist (editIds : Option (List Nat)) (s : EngineState) :
    List.Sublist (resolveTargets editIds s) s.edits := by
  cases editIds with
  | none => exact List.Sublist.refl s.edits
  | some ids => exact List.filter_sublist s.edits

theorem resolveTargets_nodup (editIds : Option (List Nat)) (s : EngineState)
    (hnd : (s.edits.map PendingEdit.id).Nodup) :
    ((resolveTargets editIds s).map PendingEdit.id).Nodup :=
  ((resolveTargets_sublist editIds s).map PendingEdit.id).nodup hnd

/-- C2: over a batch of targeted edits on valid MP3 paths whose writes fail for
exactly the subset selected by the adapter, `onApplyPendingEdits` marks exactly
the failing edits `failed` and the others `applied`, keeps processing after
each failure, returns a success count of N minus the number of failures, and a
failure list with exactly one `{id, error, filePath}` entry per failing edit in
order. -/
theorem applyEdits_partial_failure (io : String → String → Except String Unit)
    (editIds : Option (List Nat)) (s : EngineState)
    (hnd : (s.edits.map PendingEdit.id).Nodup)
    (hvalid : ∀ e ∈ resolveTargets editIds s, validateMP3File e.filePath = true) :
    (onApplyPendingEdits io editIds s).2.success =
      (resolveTargets editIds s).length -
        ((resolveTargets editIds s).filter (fun e => !writeOk io e)).length ∧
    (onApplyPendingEdits io editIds s).2.failed =
      ((resolveTargets editIds s).filter (fun e => !writeOk io e)).map
        (fun e => { id := e.id, error := writeErr io e, filePath := e.filePath }) ∧
    (∀ e ∈ resolveTargets editIds s,
      { e with status := if writeOk io e then EditStatus.applied else .failed } ∈
        (onApplyPendingEdits io editIds s).1.edits) ∧
    (∀ e ∈ s.edits, e.id ∉ (resolveTargets editIds s).map PendingEdit.id →
      e ∈ (onApplyPendingEdits io editIds s).1.edits) ∧
    (onApplyPendingEdits io editIds s).1.edits.length = s.edits.length := by
  have hndT := resolveTargets_nodup editIds s hnd
  obtain ⟨⟨hs, hf⟩, _, he⟩ := applyGo_spec io (resolveTargets editIds s) s hndT
  rw [onApplyPendingEdits_eq] at *
  have hfilter_ok : (resolveTargets editIds s).filter (attemptOk io) =
      (resolveTargets editIds s).filter (writeOk io) :=
    List.filter_congr (fun e hee => attemptOk_eq_writeOk (hvalid e hee))
  have hfilter_err : (resolveTargets editIds s).filter (fun e => !attemptOk io e) =
      (resolveTargets editIds s).filter (fun e => !writeOk io e) :=
    List.filter_congr (fun e hee => by rw [attemptOk_eq_writeOk (hvalid e hee)])
  refine ⟨?_, ?_, ?_, ?_, ?_⟩
  · rw [hs, hfilter_ok]
    have hpart := filter_length_partition (writeOk io) (resolveTargets editIds s)
    omega
  · rw [hf, hfilter_err]
    apply List.map_congr_left
    intro e hee
    rw [attemptErr_eq_writeErr (hvalid e (List.mem_of_mem_filter hee))]
  · intro e hee
    rw [he, editsAfterApply]
    have hfind := find?_eq_self_of_nodup hndT hee
    have himg : (fun row =>
        match (resolveTargets editIds s).find? (fun t => decide (t.id = row.id)) with
        | some t => { row with status := if attemptOk io t then EditStatus.applied else .failed }
        | none => row) e =
        { e with status := if writeOk io e then EditStatus.applied else .failed } := by
      simp only [hfind, attemptOk_eq_writeOk (hvalid e hee)]
    rw [← himg]
    exact List.mem_map_of_mem _ ((resolveTargets_sublist editIds s).mem hee)
  · intro e hee hid
    rw [he, editsAfterApply]
    have hfind : (resolveTargets editIds s).find? (fun t => decide (t.id = e.id)) = none := by
      rw [List.find?_eq_none]
      intro t ht hdec
      rw [decide_eq_true_eq] at hdec
      exact hid (hdec ▸ List.mem_map_of_mem PendingEdit.id ht)
    have himg : (fun row =>
        match (resolveTargets editIds s).find? (fun t => decide (t.id = row.id)) with
        | some t => { row with status := if attemptOk io t then EditStatus.applied else .failed }
        | none => row) e = e := by simp only [hfind]
    rw [← himg]
    exact List.mem_map_of_mem _ hee
  · rw [he, editsAfterApply, List.length_map]

theorem applyEdits_partial_failure_witness :
    (onApplyPendingEdits ioFailB none demoStatePending).2.success =
      (resolveTargets none demoStatePending).length -
        ((resolveTargets none demoStatePending).filter
          (fun e => !writeOk ioFailB e)).length :=
  (applyEdits_partial_failure ioFailB none demoStatePending (by decide) (by decide)).1

/-- C3: for every targeted edit, a history entry with its file path, original
comment and new comment is appended exactly when the disk write succeeded; a
failing edit keeps its row (contents intact, status `failed`) and contributes
its error to the returned failure list, with no history entry. -/
theorem applyEdits_history_atomic (io : String → String → Except String Unit)
    (editIds : Option (List Nat)) (s : EngineState)
    (hnd : (s.edits.map PendingEdit.id).Nodup)
    (hvalid : ∀ e ∈ resolveTargets editIds s, validateMP3File e.filePath = true) :
    histData (onApplyPendingEdits io editIds s).1 =
      histData s ++ ((resolveTargets editIds s).filter (writeOk io)).map
        (fun e => (e.filePath, e.originalComment, e.newComment, false)) ∧
    editContent (onApplyPendingEdits io editIds s).1 = editContent s ∧
    (∀ e ∈ resolveTargets editIds s, writeOk io e = false →
      ({ e with status := EditStatus.failed } ∈ (onApplyPendingEdits io editIds s).1.edits ∧
        ({ id := e.id, error := writeErr io e, filePath := e.filePath } : ApplyFailure) ∈
          (onApplyPendingEdits io editIds s).2.failed)) := by
  have hndT := resolveTargets_nodup editIds s hnd
  obtain ⟨⟨_, hf⟩, hh, he⟩ := applyGo_spec io (resolveTargets editIds s) s hndT
  rw [onApplyPendingEdits_eq] at *
  have hfilter_ok : (resolveTargets editIds s).filter (attemptOk io) =
      (resolveTargets editIds s).filter (writeOk io) :=
    List.filter_congr (fun e hee => attemptOk_eq_writeOk (hvalid e hee))
  refine ⟨?_, ?_, ?_⟩
  · rw [hh, hfilter_ok]
  · rw [editContent, he, editsAfterApply, List.map_map, editContent]
    apply List.map_congr_left
    intro row _
    cases hfind : (resolveTargets editIds s).find? (fun t => decide (t.id = row.id)) with
    | none => simp only [Function.comp_apply, hfind]
    | some t => simp only [Function.comp_apply, hfind]
  · intro e hee hwfail
    constructor
    · rw [he, editsAfterApply]
      have hfind := find?_eq_self_of_nodup hndT hee
      have himg : (fun row =>
          match (resolveTargets editIds s).find? (fun t => decide (t.id = row.id)) with
          | some t =>
            { row with status := if attemptOk io t then EditStatus.applied else .failed }
          | none => row) e = { e with status := EditStatus.failed } := by
        simp only [hfind, attemptOk_eq_writeOk (hvalid e hee), hwfail, Bool.false_eq_true,
          if_false]
      rw [← himg]
      exact List.mem_map_of_mem _ ((resolveTargets_sublist editIds s).mem hee)
    · rw [hf]
      have hmem : e ∈ (resolveTargets editIds s).filter (fun e2 => !attemptOk io e2) := by
        rw [List.mem_filter]
        exact ⟨hee, by rw [attemptOk_eq_writeOk (hvalid e hee), hwfail]; rfl⟩
      have himg : ({ id := e.id, error := attemptErr io e, filePath := e.filePath } :
          ApplyFailure) = { id := e.id, error := writeErr io e, filePath := e.filePath } := by
        rw [attemptErr_eq_writeErr (hvalid e hee)]
      rw [← himg]
      exact List.mem_map_of_mem _ hmem

theorem applyEdits_history_atomic_witness :
    histData (onApplyPendingEdits ioFailB none demoStatePending).1 =
      histData demoStatePending ++
        ((resolveTargets none demoStatePending).filter (writeOk ioFailB)).map
          (fun e => (e.filePath, e.originalComment, e.newComment, false)) :=
  (applyEdits_history_atomic ioFailB none demoStatePending (by decide) (by decide)).1

/-- C5 counterexample: in a store whose only edit has status `applied` (no
pending edits at all), `onApplyPendingEdits` with the ids omitted still writes
that edit — it reports one success and appends a duplicate history entry —
because `getAllPendingEdits` returns every row regardless of status. -/
theorem applyEdits_omitted_counterexample :
    demoStateApplied.edits.filter (fun e => decide (e.status = EditStatus.pending)) = [] ∧
    (onApplyPendingEdits ioAlwaysOk none demoStateApplied).2.success = 1 ∧
    histData (onApplyPendingEdits ioAlwaysOk none demoStateApplied).1 =
      [("a.mp3", some "x", "y", false)] := by
  refine ⟨rfl, rfl, rfl⟩

/-- C5 (amended): with `editIds` omitted, the target set of `applyEdits` is the
whole edit table regardless of status — every row, `pending`, `applied` or
`failed`, is attempted: each ends up `applied` or `failed` according to its
attempt, and successes plus failures account for the entire table. -/
theorem applyEdits_omitted_targets_all (io : String → String → Except String Unit)
    (s : EngineState) (hnd : (s.edits.map PendingEdit.id).Nodup) :
    resolveTargets none s = s.edits ∧
    (onApplyPendingEdits io none s).2.success +
      (onApplyPendingEdits io none s).2.failed.length = s.edits.length ∧
    ∀ e ∈ s.edits,
      { e with status := if attemptOk io e then EditStatus.applied else .failed } ∈
        (onApplyPendingEdits io none s).1.edits := by
  have hndT : ((resolveTargets none s).map PendingEdit.id).Nodup := hnd
  obtain ⟨⟨hs, hf⟩, _, he⟩ := applyGo_spec io (resolveTargets none s) s hndT
  rw [onApplyPendingEdits_eq] at *
  refine ⟨rfl, ?_, ?_⟩
  · rw [hs, hf, List.length_map]
    exact filter_length_partition (attemptOk io) s.edits
  · intro e hee
    rw [he, editsAfterApply]
    have hfind := find?_eq_self_of_nodup hnd hee
    have himg : (fun row =>
        match (resolveTargets none s).find? (fun t => decide (t.id = row.id)) with
        | some t => { row with status := if attemptOk io t then EditStatus.applied else .failed }
        | none => row) e =
        { e with status := if attemptOk io e then EditStatus.applied else .failed } := by
      simp only [resolveTargets, getAllPendingEdits, hfind]
    rw [← himg]
    exact List.mem_map_of_mem _ hee

theorem applyEdits_omitted_targets_all_witness :
    (onApplyPendingEdits ioAlwaysOk none demoStateApplied).2.success +
      (onApplyPendingEdits ioAlwaysOk none demoStateApplied).2.failed.length =
      demoStateApplied.edits.length :=
  (applyEdits_omitted_targets_all ioAlwaysOk demoStateApplied (by decide)).2.1

theorem filter_id_eq_singleton {l : List PendingEdit} (hnd : (l.map PendingEdit.id).Nodup)
    {e : PendingEdit} (he : e ∈ l) {i : Nat} (hei : e.id = i) :
    l.filter (fun r => decide (r.id = i)) = [e] := by
  induction l with
  | nil => exact absurd he (List.not_mem_nil e)
  | cons a as ih =>
    rw [List.map_cons, List.nodup_cons] at hnd
    rcases List.mem_cons.mp he with rfl | he2
    · rw [List.filter_cons_of_pos (by simp [hei])]
      have hrest : as.filter (fun r => decide (r.id = i)) = [] := by
        rw [List.filter_eq_nil_iff]
        intro r hr hdec
        rw [decide_eq_true_eq] at hdec
        exact hnd.1 (hei ▸ hdec ▸ List.mem_map_of_mem PendingEdit.id hr)
      rw [hrest]
    · have hne : ¬(a.id = i) := by
        intro h
        exact hnd.1 (h ▸ hei ▸ List.mem_map_of_mem PendingEdit.id he2)
      rw [List.filter_cons_of_neg (by simpa using hne)]
      exact ih hnd.2 he2

/-- C8: `onRejectPendingEdit` succeeds only while the edit is `pending`, in
which case it hard-deletes exactly that row and leaves the history log
untouched; on an `applied`/`failed` edit or an unknown id it reports an error
and leaves the state unchanged. -/
theorem rejectEdit_spec (editId : Nat) (s : EngineState)
    (hnd : (s.edits.map PendingEdit.id).Nodup) :
    (∀ e, (getAllPendingEdits s).find? (fun r => decide (r.id = editId)) = some e →
      e.status = EditStatus.pending →
      (onRejectPendingEdit editId s).2 = none ∧
      (onRejectPendingEdit editId s).1.history = s.history ∧
      (onRejectPendingEdit editId s).1.disk = s.disk ∧
      (onRejectPendingEdit editId s).1.edits.length + 1 = s.edits.length ∧
      e ∉ (onRejectPendingEdit editId s).1.edits ∧
      (∀ r ∈ s.edits, r.id ≠ editId → r ∈ (onRejectPendingEdit editId s).1.edits)) ∧
    (∀ e, (getAllPendingEdits s).find? (fun r => decide (r.id = editId)) = some e →
      e.status ≠ EditStatus.pending →
      onRejectPendingEdit editId s = (s, some "Edit is not in pending status")) ∧
    ((getAllPendingEdits s).find? (fun r => decide (r.id = editId)) = none →
      onRejectPendingEdit editId s = (s, some "Edit not found")) := by
  refine ⟨?_, ?_, ?_⟩
  · intro e hfe hpend
    have hres : onRejectPendingEdit editId s = (removePendingEdit editId s, none) := by
      simp only [onRejectPendingEdit, hfe]
      rw [if_neg (by simp [hpend])]
    have heid : e.id = editId := by
      have := List.find?_some hfe
      rwa [decide_eq_true_eq] at this
    have hemem : e ∈ s.edits := List.mem_of_find?_eq_some hfe
    refine ⟨by rw [hres], by rw [hres]; rfl, by rw [hres]; rfl, ?_, ?_, ?_⟩
    · rw [hres]
      show (s.edits.filter (fun r => r.id ≠ editId)).length + 1 = s.edits.length
      have hpart := filter_length_partition (fun r => decide (r.id = editId)) s.edits
      rw [filter_id_eq_singleton hnd hemem heid] at hpart
      have hcongr : s.edits.filter (fun r => !decide (r.id = editId)) =
          s.edits.filter (fun r => r.id ≠ editId) :=
        List.filter_congr (fun r _ => by simp)
      rw [hcongr] at hpart
      simp only [List.length_singleton] at hpart
      omega
    · rw [hres]
      intro hmem
      show False
      have := (List.mem_filter.mp hmem).2
      simp [heid] at this
    · intro r hr hrid
      rw [hres]
      exact List.mem_filter.mpr ⟨hr, by simpa using hrid⟩
  · intro e hfe hnp
    simp only [onRejectPendingEdit, hfe]
    rw [if_pos hnp]
  · intro hfe
    simp only [onRejectPendingEdit, hfe]

theorem rejectEdit_spec_witness :
    (onRejectPendingEdit 1 demoStatePending).2 = none ∧
    (onRejectPendingEdit 1 demoStatePending).1.history = demoStatePending.history ∧
    onRejectPendingEdit 3 demoStatePending = (demoStatePending, some "Edit not found") :=
  have h := rejectEdit_spec 1 demoStatePending (by decide)
  have h1 := h.1 demoEditA (by decide) (by decide)
  have h3 := (rejectEdit_spec 3 demoStatePending (by decide)).2.2 (by decide)
  ⟨h1.1, h1.2.1, h3⟩

theorem find?_map_pres {α : Type} {p : α → Bool} {f : α → α}
    (hf : ∀ e, p (f e) = p e) :
    ∀ l : List α, (l.map f).find? p = (l.find? p).map f := by
  intro l
  induction l with
  | nil => rfl
  | cons a as ih =>
    rw [List.map_cons]
    cases hp : p a with
    | true =>
      rw [List.find?_cons_of_pos _ (by rw [hf]; exact hp), List.find?_cons_of_pos _ hp]
      rfl
    | false =>
      rw [List.find?_cons_of_neg _ (by simp [hf, hp]), List.find?_cons_of_neg _ (by simp [hp]),
        ih]

theorem getPendingEditByFilePath_modify (fp : String) (id : Nat) (nc : String)
    (s : EngineState) :
    getPendingEditByFilePath fp (modifyPendingEdit id nc s) =
      (getPendingEditByFilePath fp s).map
        (fun e => if e.id = id then { e with newComment := nc } else e) := by
  rw [getPendingEditByFilePath, modifyPendingEdit, getPendingEditByFilePath]
  apply find?_map_pres
  intro e
  by_cases h : e.id = id <;> simp [h]

theorem pendingCountFor_modify (fp : String) (id : Nat) (nc : String) (s : EngineState) :
    pendingCountFor fp (modifyPendingEdit id nc s) = pendingCountFor fp s := by
  rw [pendingCountFor, modifyPendingEdit, pendingCountFor]
  show (List.filter _ (List.map _ s.edits)).length = _
  rw [List.filter_map, List.length_map]
  congr 1
  apply List.filter_congr
  intro e _
  by_cases h : e.id = id <;> simp [h]

theorem pendingCountFor_add (fp : String) (oc : Option String) (nc : String)
    (s : EngineState) :
    pendingCountFor fp (addPendingEdit fp oc nc s) = pendingCountFor fp s + 1 := by
  rw [pendingCountFor, addPendingEdit, pendingCountFor]
  show (List.filter _ (_ :: s.edits)).length = _
  rw [List.filter_cons_of_pos (by simp)]
  rfl

theorem pendingCountFor_zero_of_none {fp : String} {s : EngineState}
    (h : getPendingEditByFilePath fp s = none) : pendingCountFor fp s = 0 := by
  rw [getPendingEditByFilePath, List.find?_eq_none] at h
  rw [pendingCountFor]
  simp only [List.length_eq_zero]
  rw [List.filter_eq_nil_iff]
  exact fun e he hp => h e he hp

/-- One `proposePhaseToggle` step keeps at most one pending edit per file,
changes neither the disk nor the captured original, and leaves a pending edit
for the file in place. -/
theorem onUpdateFilePhases_inv (fp : String) (phases availablePhases : List String)
    (s : EngineState) (h0 : pendingCountFor fp s ≤ 1) :
    pendingCountFor fp (onUpdateFilePhases fp phases availablePhases s) ≤ 1 ∧
    (onUpdateFilePhases fp phases availablePhases s).disk = s.disk ∧
    capturedOriginal fp (onUpdateFilePhases fp phases availablePhases s) =
      capturedOriginal fp s ∧
    (getPendingEditByFilePath fp (onUpdateFilePhases fp phases availablePhases s)).isSome =
      true := by
  cases hex : getPendingEditByFilePath fp s with
  | some e =>
    have hstep : onUpdateFilePhases fp phases availablePhases s =
        modifyPendingEdit e.id
          (rebuildComment (e.originalComment.getD "") availablePhases phases) s := by
      simp only [onUpdateFilePhases, hex]
    rw [hstep]
    have hfind := getPendingEditByFilePath_modify fp e.id
      (rebuildComment (e.originalComment.getD "") availablePhases phases) s
    rw [hex] at hfind
    refine ⟨?_, rfl, ?_, ?_⟩
    · rw [pendingCountFor_modify]
      exact h0
    · rw [capturedOriginal, hfind, capturedOriginal, hex]
      simp only [Option.map_some]
      by_cases h : e.id = e.id <;> simp [h]
    · rw [hfind]
      rfl
  | none =>
    have hstep : onUpdateFilePhases fp phases availablePhases s =
        addPendingEdit fp (some ((s.disk fp).getD ""))
          (rebuildComment ((s.disk fp).getD "") availablePhases phases) s := by
      simp only [onUpdateFilePhases, hex, Option.getD_some]
    rw [hstep]
    have hfind : getPendingEditByFilePath fp (addPendingEdit fp (some ((s.disk fp).getD ""))
        (rebuildComment ((s.disk fp).getD "") availablePhases phases) s) =
        some { id := s.nextEditId,
               filePath := fp,
               originalComment := some ((s.disk fp).getD ""),
               newComment := rebuildComment ((s.disk fp).getD "") availablePhases phases,
               status := .pending } := by
      rw [getPendingEditByFilePath, addPendingEdit]
      exact List.find?_cons_of_pos _ (by simp)
    refine ⟨?_, rfl, ?_, ?_⟩
    · rw [pendingCountFor_add, pendingCountFor_zero_of_none hex]
    · rw [capturedOriginal, hfind, capturedOriginal, hex]
    · rw [hfind]
      rfl

/-- C1: under any sequence of `onUpdateFilePhases` calls for one file path
(with no apply/reject interleaved), the store keeps at most one pending edit
for that path, its `originalComment` stays the value captured at the first call
of the sequence, and after at least one call such a pending edit exists. -/
theorem proposePhaseToggle_single_pending (fp : String)
    (calls : List (List String × List String)) (s : EngineState)
    (h0 : pendingCountFor fp s ≤ 1) :
    pendingCountFor fp (runUpdates fp calls s) ≤ 1 ∧
    (∀ e, getPendingEditByFilePath fp (runUpdates fp calls s) = some e →
      e.originalComment = capturedOriginal fp s) ∧
    (calls ≠ [] → (getPendingEditByFilePath fp (runUpdates fp calls s)).isSome = true) := by
  induction calls generalizing s with
  | nil =>
    refine ⟨h0, ?_, fun h => absurd rfl h⟩
    intro e he
    have he2 : getPendingEditByFilePath fp s = some e := he
    simp only [capturedOriginal, he2]
  | cons c cs ih =>
    have hrun : runUpdates fp (c :: cs) s =
        runUpdates fp cs (onUpdateFilePhases fp c.1 c.2 s) := rfl
    obtain ⟨hc, _, hcap, hsome⟩ := onUpdateFilePhases_inv fp c.1 c.2 s h0
    obtain ⟨ih1, ih2, ih3⟩ := ih (onUpdateFilePhases fp c.1 c.2 s) hc
    rw [hrun]
    refine ⟨ih1, ?_, ?_⟩
    · intro e he
      rw [ih2 e he, hcap]
    · intro _
      cases cs with
      | nil => exact hsome
      | cons d ds => exact ih3 (by simp)

theorem proposePhaseToggle_single_pending_witness :
    pendingCountFor "a.mp3"
      (runUpdates "a.mp3" [(["peak"], ["peak"]), (["peak", "buildup"], ["peak", "buildup"])]
        demoStateEmpty) ≤ 1 ∧
    (getPendingEditByFilePath "a.mp3"
      (runUpdates "a.mp3" [(["peak"], ["peak"]), (["peak", "buildup"], ["peak", "buildup"])]
        demoStateEmpty)).isSome = true :=
  have h := proposePhaseToggle_single_pending "a.mp3"
    [(["peak"], ["peak"]), (["peak", "buildup"], ["peak", "buildup"])] demoStateEmpty
    (by decide)
  ⟨h.1, h.2.2 (by decide)⟩

/-- C4: undoing an applied edit (with its frozen original comment and a
matching unreverted history entry) writes the original comment back to disk,
flags exactly the most recent matching history entry reverted, and resets the
edit row to `pending` with its comments unchanged; undoing an edit that is not
`applied` fails and leaves the state untouched. -/
theorem undoEdit_spec (io : String → String → Except String Unit) (id : Nat)
    (s : EngineState) (e : PendingEdit) (c : String) (hm : HistoryEntry)
    (hfind : getPendingEditById id s = some e)
    (happ : e.status = EditStatus.applied)
    (horig : e.originalComment = some c)
    (hio : io e.filePath c = Except.ok ())
    (hmatch : mostRecentMatch e.filePath e.newComment s = some hm)
    (s2 : EngineState) (id2 : Nat) (e2 : PendingEdit)
    (hfind2 : getPendingEditById id2 s2 = some e2)
    (hnapp2 : e2.status ≠ EditStatus.applied) :
    (onUndoAppliedEdit io id s).2 = none ∧
    (onUndoAppliedEdit io id s).1.disk e.filePath = some c ∧
    { hm with reverted := true } ∈ (onUndoAppliedEdit io id s).1.history ∧
    (∀ h ∈ s.history, h.id ≠ hm.id → h ∈ (onUndoAppliedEdit io id s).1.history) ∧
    (onUndoAppliedEdit io id s).1.history.length = s.history.length ∧
    { e with status := EditStatus.pending } ∈ (onUndoAppliedEdit io id s).1.edits ∧
    (∀ r ∈ s.edits, r.id ≠ id → r ∈ (onUndoAppliedEdit io id s).1.edits) ∧
    onUndoAppliedEdit io id2 s2 = (s2, some "Edit is not applied") := by
  have hgd : e.originalComment.getD "" = c := by rw [horig]; rfl
  have hio2 : io e.filePath (e.originalComment.getD "") = Except.ok () := by rw [hgd, hio]
  have hm2 : (fetchHistory (writeDisk e.filePath (e.originalComment.getD "") s)).find?
      (fun h => decide (h.filePath = e.filePath ∧ h.newComment = e.newComment ∧
        h.reverted = false)) = some hm := hmatch
  have hres : onUndoAppliedEdit io id s =
      (updatePendingEditStatus id EditStatus.pending
        (markHistoryReverted hm.id (writeDisk e.filePath (e.originalComment.getD "") s)),
        none) := by
    simp only [onUndoAppliedEdit, hfind]
    rw [if_neg (by simp [happ])]
    simp only [hio2, hm2]
  have heid : e.id = id := by
    have := List.find?_some hfind
    rwa [decide_eq_true_eq] at this
  have hemem : e ∈ s.edits := List.mem_of_find?_eq_some hfind
  have hmmem : hm ∈ s.history := by
    have := List.mem_of_find?_eq_some hmatch
    rwa [fetchHistory, List.mem_reverse] at this
  refine ⟨by rw [hres], ?_, ?_, ?_, by rw [hres]; simp [updatePendingEditStatus,
    markHistoryReverted, writeDisk], ?_, ?_, ?_⟩
  · rw [hres]
    show (if e.filePath = e.filePath then some (e.originalComment.getD "")
      else s.disk e.filePath) = some c
    rw [if_pos rfl, hgd]
  · rw [hres]
    show { hm with reverted := true } ∈ s.history.map
      (fun h => if h.id = hm.id then { h with reverted := true } else h)
    have himg : (fun h => if h.id = hm.id then { h with reverted := true } else h) hm =
        { hm with reverted := true } := by simp
    rw [← himg]
    exact List.mem_map_of_mem _ hmmem
  · intro h hh hne
    rw [hres]
    show h ∈ s.history.map (fun h2 => if h2.id = hm.id then { h2 with reverted := true } else h2)
    have himg : (fun h2 => if h2.id = hm.id then { h2 with reverted := true } else h2) h = h := by
      simp [hne]
    rw [← himg]
    exact List.mem_map_of_mem _ hh
  · rw [hres]
    show { e with status := EditStatus.pending } ∈ s.edits.map
      (fun r => if r.id = id then { r with status := EditStatus.pending } else r)
    have himg : (fun r => if r.id = id then { r with status := EditStatus.pending } else r) e =
        { e with status := EditStatus.pending } := by simp [heid]
    rw [← himg]
    exact List.mem_map_of_mem _ hemem
  · intro r hr hrid
    rw [hres]
    show r ∈ s.edits.map
      (fun r2 => if r2.id = id then { r2 with status := EditStatus.pending } else r2)
    have himg : (fun r2 => if r2.id = id then { r2 with status := EditStatus.pending } else r2)
        r = r := by simp [hrid]
    rw [← himg]
    exact List.mem_map_of_mem _ hr
  · simp only [onUndoAppliedEdit, hfind2]
    rw [if_pos hnapp2]

theorem undoEdit_spec_witness :
    (onUndoAppliedEdit ioAlwaysOk 1 demoStateUndo).2 = none ∧
    (onUndoAppliedEdit ioAlwaysOk 1 demoStateUndo).1.disk "a.mp3" = some "x" ∧
    onUndoAppliedEdit ioAlwaysOk 1 demoStatePending = (demoStatePending, some "Edit is not applied") :=
  have h := undoEdit_spec ioAlwaysOk 1 demoStateUndo demoAppliedEdit "x" demoHistEntry
    (by decide) (by decide) (by decide) rfl (by decide)
    demoStatePending 1 demoEditA (by decide) (by decide)
  ⟨h.1, h.2.1, h.2.2.2.2.2.2.2⟩

/-- C10: undoing an `applied` edit for which no matching unreverted history
entry exists still succeeds: the original comment (empty string when null) is
written to disk, the edit is reset to `pending`, the history log is left
entirely unchanged, and no error is raised. -/
theorem undoEdit_no_history (io : String → String → Except String Unit) (id : Nat)
    (s : EngineState) (e : PendingEdit)
    (hfind : getPendingEditById id s = some e)
    (happ : e.status = EditStatus.applied)
    (hio : io e.filePath (e.originalComment.getD "") = Except.ok ())
    (hnone : ∀ h ∈ s.history, ¬(h.filePath = e.filePath ∧ h.newComment = e.newComment ∧
      h.reverted = false)) :
    (onUndoAppliedEdit io id s).2 = none ∧
    (onUndoAppliedEdit io id s).1.disk e.filePath = some (e.originalComment.getD "") ∧
    (onUndoAppliedEdit io id s).1.history = s.history ∧
    { e with status := EditStatus.pending } ∈ (onUndoAppliedEdit io id s).1.edits := by
  have hm2 : (fetchHistory (writeDisk e.filePath (e.originalComment.getD "") s)).find?
      (fun h => decide (h.filePath = e.filePath ∧ h.newComment = e.newComment ∧
        h.reverted = false)) = none := by
    rw [List.find?_eq_none]
    intro h hh
    have hmem : h ∈ s.history := by
      rwa [fetchHistory, List.mem_reverse] at hh
    simp only [decide_eq_true_eq]
    exact hnone h hmem
  have hres : onUndoAppliedEdit io id s =
      (updatePendingEditStatus id EditStatus.pending
        (writeDisk e.filePath (e.originalComment.getD "") s), none) := by
    simp only [onUndoAppliedEdit, hfind]
    rw [if_neg (by simp [happ])]
    simp only [hio, hm2]
  have heid : e.id = id := by
    have := List.find?_some hfind
    rwa [decide_eq_true_eq] at this
  have hemem : e ∈ s.edits := List.mem_of_find?_eq_some hfind
  refine ⟨by rw [hres], ?_, by rw [hres]; rfl, ?_⟩
  · rw [hres]
    show (if e.filePath = e.filePath then some (e.originalComment.getD "")
      else s.disk e.filePath) = some (e.originalComment.getD "")
    rw [if_pos rfl]
  · rw [hres]
    show { e with status := EditStatus.pending } ∈ s.edits.map
      (fun r => if r.id = id then { r with status := EditStatus.pending } else r)
    have himg : (fun r => if r.id = id then { r with status := EditStatus.pending } else r) e =
        { e with status := EditStatus.pending } := by simp [heid]
    rw [← himg]
    exact List.mem_map_of_mem _ hemem

theorem undoEdit_no_history_witness :
    (onUndoAppliedEdit ioAlwaysOk 1 demoStateApplied).2 = none ∧
    (onUndoAppliedEdit ioAlwaysOk 1 demoStateApplied).1.history = demoStateApplied.history :=
  have h := undoEdit_no_history ioAlwaysOk 1 demoStateApplied demoAppliedEdit
    (by decide) (by decide) rfl (by decide)
  ⟨h.1, h.2.2.1⟩

theorem extractPhases_characterization_witness :
    ("peak" : String) ∈ (["peak"] : List String) ∧
    ('#' :: ("peak" : String).data) <:+: ("xy #peak" : String).data :=
  have h := (extractPhases_characterization "xy #peak" ["peak"]).2.2 "peak" (by decide)
  ⟨h.1, h.2.2.2⟩
